import Mathlib

/-!
Verification of the digit-extraction program in `src/main.rs`
(`find`, `r_find`, `extract_number`, the digit tables and the
line-aggregation loop in `main`).

The development contains three layers:

* a character-level model (`find`, `r_find`, `extract_number`) that is a
  faithful translation of the Rust code for ASCII lines, where the byte
  positions used by the Rust code coincide with character positions;
* a byte-level model (`findB`, `r_findB`, `extract_numberB`) that models
  Rust strings as UTF-8 byte sequences, models `&str` range indexing
  including its panic on non-char-boundary indices (`Except.error`), and
  models the `chars()` iterator advancing one character per loop
  iteration while the position counter advances one byte;
* spec-side definitions (`specOccAt`, `specFirstPos`, ...) written from
  the specification's words (leftmost / rightmost digit occurrence,
  literal or spelled) against which the code model is compared.

The byte-level model is the authority; the bridge lemmas show that on
ASCII lines it agrees with the character-level model.
-/

namespace FindDigits

/-- Outcome of one directional scan, translated from the Rust struct
`SearchResult { number: Option<char>, last_parsed_position: usize }`. -/
structure SearchResult where
  number : Option Char
  last_parsed_position : Nat
deriving DecidableEq

/-- One entry of the digit tables: a 3-character probe, the full word and
the digit character it denotes, translated from the Rust tuples
`(&str, &str, char)`. -/
structure DigitWord where
  probe : List Char
  word : List Char
  value : Char
deriving DecidableEq

/-- Rust's `char::is_ascii_digit`: the character is in `'0'..='9'`
(code points 48 to 57). -/
def isAsciiDigit (c : Char) : Bool := 48 ≤ c.toNat && c.toNat ≤ 57

/-- Numeric value of an ASCII digit character. -/
def digitVal (c : Char) : Nat := c.toNat - 48

/-- The forward table `LETTERS_DIGITS` from the source: probe = first
three characters of the word, in the source's order. -/
def LETTERS_DIGITS : List DigitWord :=
  [⟨['o','n','e'], ['o','n','e'], '1'⟩,
   ⟨['t','w','o'], ['t','w','o'], '2'⟩,
   ⟨['s','i','x'], ['s','i','x'], '6'⟩,
   ⟨['f','o','u'], ['f','o','u','r'], '4'⟩,
   ⟨['f','i','v'], ['f','i','v','e'], '5'⟩,
   ⟨['n','i','n'], ['n','i','n','e'], '9'⟩,
   ⟨['s','e','v'], ['s','e','v','e','n'], '7'⟩,
   ⟨['e','i','g'], ['e','i','g','h','t'], '8'⟩,
   ⟨['t','h','r'], ['t','h','r','e','e'], '3'⟩]

/-- The backward table `LETTERS_DIGITS_REV` from the source: probe = last
three characters of the word, in the source's order. -/
def LETTERS_DIGITS_REV : List DigitWord :=
  [⟨['o','n','e'], ['o','n','e'], '1'⟩,
   ⟨['t','w','o'], ['t','w','o'], '2'⟩,
   ⟨['s','i','x'], ['s','i','x'], '6'⟩,
   ⟨['o','u','r'], ['f','o','u','r'], '4'⟩,
   ⟨['i','v','e'], ['f','i','v','e'], '5'⟩,
   ⟨['i','n','e'], ['n','i','n','e'], '9'⟩,
   ⟨['v','e','n'], ['s','e','v','e','n'], '7'⟩,
   ⟨['g','h','t'], ['e','i','g','h','t'], '8'⟩,
   ⟨['r','e','e'], ['t','h','r','e','e'], '3'⟩]

/-- `LETTERS_DIGIT_MIN_LEN` from the source. -/
def LETTERS_DIGIT_MIN_LEN : Nat := 3

/-- Character-level translation of the loop of Rust `find`, faithful for
ASCII lines (there one loop iteration consumes one character and
advances the byte position by one, so the remaining characters drive the
loop).  `pos` is the current position, the first argument the remaining
characters `line[pos..]`.  At the end of the line the code returns
`SearchResult { number: None, last_parsed_position: line_length }`;
under the invariant `pos + rem.length = line.length` the empty case
returns `pos`. -/
def find_aux : List Char → Nat → SearchResult
  | [], pos => ⟨none, pos⟩
  | c :: rest, pos =>
    if isAsciiDigit c then ⟨some c, pos⟩
    else if (c :: rest).length < LETTERS_DIGIT_MIN_LEN then find_aux rest (pos + 1)
    else
      match LETTERS_DIGITS.find? (fun e => (c :: rest).take LETTERS_DIGIT_MIN_LEN == e.probe) with
      | some e =>
        if e.word.length ≤ (c :: rest).length && (c :: rest).take e.word.length == e.word then
          ⟨some e.value, pos⟩
        else find_aux rest (pos + 1)
      | none => find_aux rest (pos + 1)

/-- Rust `find` (character level, ASCII lines). -/
def find (line : List Char) : SearchResult := find_aux line 0

/-- Character-level translation of the loop of Rust `r_find`, faithful
for ASCII lines.  The loop runs while `pos > found_pos`; each iteration
decrements `pos` unless it returns, so the number of remaining iterations
is `pos - found_pos`, carried here as structural fuel (invariant:
`pos = found_pos + fuel`).  The reverse character iterator yields
`line[pos - 1]` at the iteration where the counter is `pos`. -/
def r_find_aux (line : List Char) (found_pos : Nat) : Nat → Nat → SearchResult
  | 0, pos => ⟨none, pos⟩
  | fuel + 1, pos =>
    if isAsciiDigit (line.getD (pos - 1) ' ') then ⟨some (line.getD (pos - 1) ' '), pos⟩
    else if pos < LETTERS_DIGIT_MIN_LEN then r_find_aux line found_pos fuel (pos - 1)
    else
      match LETTERS_DIGITS_REV.find? (fun e =>
          (line.drop (pos - LETTERS_DIGIT_MIN_LEN)).take LETTERS_DIGIT_MIN_LEN == e.probe) with
      | some e =>
        if e.word.length ≤ pos && (line.drop (pos - e.word.length)).take e.word.length == e.word then
          ⟨some e.value, pos - e.word.length⟩
        else r_find_aux line found_pos fuel (pos - 1)
      | none => r_find_aux line found_pos fuel (pos - 1)

/-- Rust `r_find` (character level, ASCII lines). -/
def r_find (line : List Char) (found_pos : Nat) : SearchResult :=
  r_find_aux line found_pos (line.length - found_pos) line.length

/-- Rust `str::parse::<u32>` restricted to the strings the program
builds: it succeeds on a nonempty all-digit string whose value fits in
`u32` and yields its base-10 value. -/
def parseU32 (s : List Char) : Option Nat :=
  if s ≠ [] ∧ s.all isAsciiDigit then
    let v := s.foldl (fun acc c => acc * 10 + digitVal c) 0
    if v < 2 ^ 32 then some v else none
  else none

/-- Rust `extract_number` (character level, ASCII lines): forward scan,
backward scan bounded by the forward scan's stop position, then
`format!("{fst}{lst}").parse()`. -/
def extract_number (line : List Char) : Option Nat :=
  let res := find line
  let r_res := r_find line res.last_parsed_position
  match res.number, r_res.number with
  | some fst, some lst => parseU32 [fst, lst]
  | _, _ => none

/-! ### Byte-level model

Rust strings are UTF-8 byte sequences; `line.len()` counts bytes,
`line[a..b]` panics unless `a ≤ b` and both indices are char boundaries,
and `line.chars()` yields one character per call.  A line is modelled by
its list of characters (a Rust `String` is always valid UTF-8, so this
is a bijective representation) and the bytes are recovered by UTF-8
encoding.  Panics are modelled as `Except.error ()`. -/

/-- UTF-8 encoding of one Unicode scalar value. -/
def utf8Bytes (c : Char) : List Nat :=
  let n := c.toNat
  if n < 128 then [n]
  else if n < 2048 then [192 + n / 64, 128 + n % 64]
  else if n < 65536 then [224 + n / 4096, 128 + (n / 64) % 64, 128 + n % 64]
  else [240 + n / 262144, 128 + (n / 4096) % 64, 128 + (n / 64) % 64, 128 + n % 64]

/-- UTF-8 encoding of a character sequence. -/
def strBytes : List Char → List Nat
  | [] => []
  | c :: cs => utf8Bytes c ++ strBytes cs

/-- Rust `str::len`: the length in bytes. -/
def byteLen (s : List Char) : Nat := (strBytes s).length

/-- Byte index `i` is a char boundary of the UTF-8 encoding of `s`
(start of a character, or one past the end); indices beyond the end are
not boundaries. -/
def isBoundary : List Char → Nat → Bool
  | _, 0 => true
  | [], _ + 1 => false
  | c :: cs, i + 1 =>
    if i + 1 < (utf8Bytes c).length then false
    else isBoundary cs (i + 1 - (utf8Bytes c).length)

/-- Rust `&line[a..b]`: the byte slice, or `none` (panic) when `a > b`,
an index is past the end, or an index is not a char boundary. -/
def sliceBytes (s : List Char) (a b : Nat) : Option (List Nat) :=
  if a ≤ b && isBoundary s a && isBoundary s b then
    some (((strBytes s).drop a).take (b - a))
  else none

/-- The digit check of `if let Some(c) = character.next()`: the next
character of the iterator when it exists and is an ASCII digit. -/
def digitNext (rem : List Char) : Option Char :=
  match rem.head? with
  | some c => if isAsciiDigit c then some c else none
  | none => none

/-- Byte-level translation of the loop of Rust `find`.  `pos` is the
byte position, `rem` the characters the iterator has not yet yielded;
the loop runs while `pos < byteLen line`, so the remaining iteration
count `byteLen line - pos` is carried as structural fuel.  A slicing
panic is `Except.error ()`. -/
def findB_aux (line : List Char) : Nat → Nat → List Char → Except Unit SearchResult
  | 0, _, _ => .ok ⟨none, byteLen line⟩
  | fuel + 1, pos, rem =>
    match digitNext rem with
    | some c => .ok ⟨some c, pos⟩
    | none =>
      if byteLen line - pos < LETTERS_DIGIT_MIN_LEN then findB_aux line fuel (pos + 1) rem.tail
      else
        match sliceBytes line pos (pos + LETTERS_DIGIT_MIN_LEN) with
        | none => .error ()
        | some w =>
          match LETTERS_DIGITS.find? (fun e => w == strBytes e.probe) with
          | some e =>
            if (strBytes e.word).length ≤ byteLen line - pos then
              match sliceBytes line pos (pos + (strBytes e.word).length) with
              | none => .error ()
              | some w2 =>
                if w2 == strBytes e.word then .ok ⟨some e.value, pos⟩
                else findB_aux line fuel (pos + 1) rem.tail
            else findB_aux line fuel (pos + 1) rem.tail
          | none => findB_aux line fuel (pos + 1) rem.tail

/-- Rust `find`, byte level. -/
def findB (line : List Char) : Except Unit SearchResult :=
  findB_aux line (byteLen line) 0 line

/-- Byte-level translation of the loop of Rust `r_find`.  The loop runs
while `pos > found_pos` and decrements `pos` once per iteration, so the
remaining iteration count `pos - found_pos` is carried as structural
fuel; `rem` is what the reverse character iterator has not yet
yielded. -/
def r_findB_aux (line : List Char) : Nat → Nat → List Char → Except Unit SearchResult
  | 0, pos, _ => .ok ⟨none, pos⟩
  | fuel + 1, pos, rem =>
    match digitNext rem with
    | some c => .ok ⟨some c, pos⟩
    | none =>
      if pos < LETTERS_DIGIT_MIN_LEN then r_findB_aux line fuel (pos - 1) rem.tail
      else
        match sliceBytes line (pos - LETTERS_DIGIT_MIN_LEN) pos with
        | none => .error ()
        | some w =>
          match LETTERS_DIGITS_REV.find? (fun e => w == strBytes e.probe) with
          | some e =>
            if (strBytes e.word).length ≤ pos then
              match sliceBytes line (pos - (strBytes e.word).length) pos with
              | none => .error ()
              | some w2 =>
                if w2 == strBytes e.word then .ok ⟨some e.value, pos - (strBytes e.word).length⟩
                else r_findB_aux line fuel (pos - 1) rem.tail
            else r_findB_aux line fuel (pos - 1) rem.tail
          | none => r_findB_aux line fuel (pos - 1) rem.tail

/-- Rust `r_find`, byte level. -/
def r_findB (line : List Char) (found_pos : Nat) : Except Unit SearchResult :=
  r_findB_aux line (byteLen line - found_pos) (byteLen line) line.reverse

/-- Rust `extract_number`, byte level; a panic in either scan aborts. -/
def extract_numberB (line : List Char) : Except Unit (Option Nat) :=
  match findB line with
  | .error e => .error e
  | .ok res =>
    match r_findB line res.last_parsed_position with
    | .error e => .error e
    | .ok r_res =>
      match res.number, r_res.number with
      | some fst, some lst => .ok (parseU32 [fst, lst])
      | _, _ => .ok none

/-! ### Aggregator model

The loop of `main`: counters are `u32` (wrapping modelled with
`% 2 ^ 32`); each element of the input is a read result (`Except.error`
for a line that failed to decode).  A panic inside `extract_number`
aborts the whole run. -/

/-- The `u32` modulus. -/
def U32MOD : Nat := 2 ^ 32

/-- The counters of `main`: running sum, lines read, lines classified
incorrect. -/
structure RunTotals where
  total_sum : Nat
  parsed_lines : Nat
  incorrect_lines : Nat
deriving DecidableEq

/-- One iteration of the loop of `main` on one read result. -/
def aggStep (st : RunTotals) (res : Except Unit (List Char)) : Except Unit RunTotals :=
  let st1 : RunTotals := { st with parsed_lines := (st.parsed_lines + 1) % U32MOD }
  match res with
  | .error _ => .ok st1
  | .ok line =>
    if line.isEmpty then .ok { st1 with incorrect_lines := (st1.incorrect_lines + 1) % U32MOD }
    else
      match extract_numberB line with
      | .error e => .error e
      | .ok (some amount) => .ok { st1 with total_sum := (st1.total_sum + amount) % U32MOD }
      | .ok none => .ok { st1 with incorrect_lines := (st1.incorrect_lines + 1) % U32MOD }

/-- The loop of `main` from a given state. -/
def processFrom (st : RunTotals) : List (Except Unit (List Char)) → Except Unit RunTotals
  | [] => .ok st
  | r :: rs =>
    match aggStep st r with
    | .error e => .error e
    | .ok st' => processFrom st' rs

/-- The whole run of `main`'s loop from the zero counters. -/
def processLines (lines : List (Except Unit (List Char))) : Except Unit RunTotals :=
  processFrom ⟨0, 0, 0⟩ lines

/-! ### Spec-side definitions

Written from the specification's words, for the refinement claims: a
digit occurrence in a line is a literal ASCII digit at a position, or
one of the spelled-out words `one` .. `nine` starting at a position; the
first/last digit of a line are the values at the leftmost/rightmost
occurrence. -/

/-- The nine spelled-out number words with their values, from the
specification (digit 0 is never spelled). -/
def numberWords : List (List Char × Nat) :=
  [(['o','n','e'], 1), (['t','w','o'], 2), (['t','h','r','e','e'], 3),
   (['f','o','u','r'], 4), (['f','i','v','e'], 5), (['s','i','x'], 6),
   (['s','e','v','e','n'], 7), (['e','i','g','h','t'], 8), (['n','i','n','e'], 9)]

/-- The word `w` occurs in `l` starting at position `p`. -/
def occursAt (l : List Char) (p : Nat) (w : List Char) : Bool :=
  (l.drop p).take w.length == w

/-- The digit occurrence starting at position `p`, as (value, length):
a literal ASCII digit at `p` (length 1), else a spelled word starting at
`p` (at most one can, see `word_take3_unique`). -/
def specOccAt (l : List Char) (p : Nat) : Option (Nat × Nat) :=
  match l[p]? with
  | some c =>
    if isAsciiDigit c then some (digitVal c, 1)
    else (numberWords.find? fun w => occursAt l p w.1).map (fun w => (w.2, w.1.length))
  | none => none

/-- The digit occurrence ending at position `q`, as (value, start):
a literal ASCII digit at `q - 1`, else a spelled word ending at `q`. -/
def specOccEndAt (l : List Char) (q : Nat) : Option (Nat × Nat) :=
  if q = 0 then none
  else
    match l[q - 1]? with
    | some c =>
      if isAsciiDigit c then some (digitVal c, q - 1)
      else
        (numberWords.find? fun w => w.1.length ≤ q && occursAt l (q - w.1.length) w.1).map
          (fun w => (w.2, q - w.1.length))
    | none => none

/-- Number of positions of `l` at which a digit occurrence starts. -/
def specOccCount (l : List Char) : Nat :=
  ((List.range l.length).filter fun p => (specOccAt l p).isSome).length

/-- Leftmost position at which a digit occurrence starts. -/
def specFirstPos (l : List Char) : Option Nat :=
  (List.range l.length).find? fun p => (specOccAt l p).isSome

/-- Rightmost position at which a digit occurrence starts. -/
def specLastPos (l : List Char) : Option Nat :=
  (List.range l.length).reverse.find? fun p => (specOccAt l p).isSome

/-- Value of the leftmost digit occurrence (0 when there is none). -/
def specFirstVal (l : List Char) : Nat :=
  match specFirstPos l with
  | some p => ((specOccAt l p).map Prod.fst).getD 0
  | none => 0

/-- Value of the rightmost digit occurrence (0 when there is none). -/
def specLastVal (l : List Char) : Nat :=
  match specLastPos l with
  | some p => ((specOccAt l p).map Prod.fst).getD 0
  | none => 0

/-- The line consists of ASCII characters only. -/
def asciiLine (l : List Char) : Bool := l.all fun c => c.toNat < 128

/-- The calibration value one read line contributes to the sum: a
nonempty decoded line with a present extraction result contributes that
value, anything else contributes nothing. -/
def specLineValue (res : Except Unit (List Char)) : Nat :=
  match res with
  | .ok l =>
    if l.isEmpty then 0
    else match extract_numberB l with
      | .ok (some v) => v
      | _ => 0
  | .error _ => 0

/-- Whether one read line is classified incorrect: a decoded line that
is empty or yields no calibration value. -/
def specLineIncorrect (res : Except Unit (List Char)) : Bool :=
  match res with
  | .ok l => l.isEmpty || (match extract_numberB l with
                           | .ok none => true
                           | _ => false)
  | .error _ => false

/-- Run-level sum the specification describes. -/
def specRunSum (lines : List (Except Unit (List Char))) : Nat :=
  (lines.map specLineValue).sum

/-- Run-level incorrect-line count the specification describes. -/
def specRunIncorrect (lines : List (Except Unit (List Char))) : Nat :=
  (lines.filter specLineIncorrect).length

/-- Every decoded line of the run is ASCII. -/
def asciiRun (lines : List (Except Unit (List Char))) : Bool :=
  lines.all fun res =>
    match res with
    | .ok l => asciiLine l
    | .error _ => true

/-! ## Generic helper lemmas -/

theorem char_toNat_inj : Function.Injective Char.toNat := by
  intro a b h
  exact Char.ext (UInt32.ext h)

theorem map_charToNat_eq_iff (l1 l2 : List Char) :
    l1.map Char.toNat = l2.map Char.toNat ↔ l1 = l2 :=
  ⟨fun h => List.map_injective_iff.mpr char_toNat_inj h, fun h => h ▸ rfl⟩

theorem find?_eq_some_of_unique {α : Type} (L : List α) (p : α → Bool) (x : α)
    (hx : x ∈ L) (hpx : p x = true) (huniq : ∀ y ∈ L, p y = true → y = x) :
    L.find? p = some x := by
  induction L with
  | nil => cases hx
  | cons a as ih =>
    rw [List.find?_cons]
    cases hpa : p a with
    | false =>
      apply ih
      · rcases List.mem_cons.mp hx with h | h
        · subst h; rw [hpx] at hpa; cases hpa
        · exact h
      · exact fun y hy hpy => huniq y (List.mem_cons_of_mem _ hy) hpy
    | true =>
      rw [huniq a (List.mem_cons_self _ _) hpa]

theorem find?_congr_pred {α : Type} (L : List α) (p q : α → Bool)
    (h : ∀ x ∈ L, p x = q x) : L.find? p = L.find? q := by
  induction L with
  | nil => rfl
  | cons a as ih =>
    rw [List.find?_cons, List.find?_cons, h a (List.mem_cons_self _ _)]
    cases q a with
    | false => exact ih fun x hx => h x (List.mem_cons_of_mem _ hx)
    | true => rfl

theorem mem_range'_one {s n m : Nat} : m ∈ List.range' s n ↔ s ≤ m ∧ m < s + n := by
  rw [List.mem_range']
  constructor
  · rintro ⟨i, hi, rfl⟩; omega
  · intro ⟨h1, h2⟩; exact ⟨m - s, by omega, by omega⟩

theorem reverse_range'_succ (s n : Nat) :
    (List.range' s (n + 1)).reverse = (s + n) :: (List.range' s n).reverse := by
  rw [show List.range' s (n + 1) = List.range' s (n + 1) 1 from rfl, List.range'_concat]
  simp

/-- `find?` on a reversed unit-step range finds the largest element of
the range satisfying the predicate. -/
theorem find?_reverse_range'_spec (p : Nat → Bool) :
    ∀ n s q, ((List.range' s n).reverse.find? p = some q →
      p q = true ∧ s ≤ q ∧ q < s + n ∧ ∀ r, s ≤ r → r < s + n → p r = true → r ≤ q) := by
  intro n
  induction n with
  | zero => intro s q h; cases h
  | succ n ih =>
    intro s q h
    rw [reverse_range'_succ, List.find?_cons] at h
    cases hp : p (s + n) with
    | true =>
      rw [hp] at h
      cases h
      exact ⟨hp, by omega, by omega, fun r _ h2 _ => by omega⟩
    | false =>
      rw [hp] at h
      obtain ⟨h1, h2, h3, h4⟩ := ih s q h
      refine ⟨h1, h2, by omega, fun r hr1 hr2 hr3 => ?_⟩
      rcases Nat.lt_or_ge r (s + n) with hlt | hge
      · exact h4 r hr1 hlt hr3
      · exfalso; have : r = s + n := by omega
        subst this; rw [hr3] at hp; cases hp

theorem find?_reverse_range'_isSome (p : Nat → Bool) (s n q : Nat)
    (hq1 : s ≤ q) (hq2 : q < s + n) (hp : p q = true) :
    ((List.range' s n).reverse.find? p).isSome = true := by
  cases h : (List.range' s n).reverse.find? p with
  | some x => rfl
  | none =>
    rw [List.find?_eq_none] at h
    exact absurd hp (h q (by rw [List.mem_reverse]; exact mem_range'_one.mpr ⟨hq1, hq2⟩))

/-! ## Facts about the digit tables (all by computation) -/

/-- Every forward-table entry: probe is the first three characters of
the word, the word has at least three characters, the digit character is
an ASCII digit, word and value agree with the spec-side word list, and
probe and word are ASCII. -/
theorem fwd_table_facts : ∀ e ∈ LETTERS_DIGITS,
    e.probe = e.word.take 3 ∧ 3 ≤ e.word.length ∧ isAsciiDigit e.value = true ∧
    (e.word, digitVal e.value) ∈ numberWords ∧
    asciiLine e.probe = true ∧ asciiLine e.word = true := by decide

/-- Every backward-table entry: probe is the last three characters of
the word, and the analogous facts. -/
theorem rev_table_facts : ∀ e ∈ LETTERS_DIGITS_REV,
    e.probe = e.word.drop (e.word.length - 3) ∧ 3 ≤ e.word.length ∧
    isAsciiDigit e.value = true ∧ (e.word, digitVal e.value) ∈ numberWords ∧
    asciiLine e.probe = true ∧ asciiLine e.word = true := by decide

/-- Every spec-side word has a forward-table entry with the same word
and value. -/
theorem word_has_fwd_entry : ∀ w ∈ numberWords,
    ∃ e, e ∈ LETTERS_DIGITS ∧ e.word = w.1 ∧ digitVal e.value = w.2 := by decide

/-- Every spec-side word has a backward-table entry with the same word
and value. -/
theorem word_has_rev_entry : ∀ w ∈ numberWords,
    ∃ e, e ∈ LETTERS_DIGITS_REV ∧ e.word = w.1 ∧ digitVal e.value = w.2 := by decide

/-- A spec-side word whose first three characters equal a forward probe
is that probe's word. -/
theorem fwd_probe_unique_word : ∀ w ∈ numberWords, ∀ e ∈ LETTERS_DIGITS,
    w.1.take 3 = e.probe → w.1 = e.word := by decide

/-- A spec-side word whose last three characters equal a backward probe
is that probe's word. -/
theorem rev_probe_unique_word : ∀ w ∈ numberWords, ∀ e ∈ LETTERS_DIGITS_REV,
    w.1.drop (w.1.length - 3) = e.probe → w.1 = e.word := by decide

/-- Every spelled word has at least three characters. -/
theorem word_min_len : ∀ w ∈ numberWords, 3 ≤ w.1.length := by decide

/-- No character of a spelled word is an ASCII digit. -/
theorem word_no_digit : ∀ w ∈ numberWords, ∀ c ∈ w.1, isAsciiDigit c = false := by decide

/-- Spelled words are ASCII. -/
theorem word_ascii : ∀ w ∈ numberWords, asciiLine w.1 = true := by decide

/-- The first three characters determine the spelled word (and its
value). -/
theorem word_take3_unique : ∀ w1 ∈ numberWords, ∀ w2 ∈ numberWords,
    w1.1.take 3 = w2.1.take 3 → w1 = w2 := by decide

/-- The last three characters determine the spelled word (and its
value). -/
theorem word_last3_unique : ∀ w1 ∈ numberWords, ∀ w2 ∈ numberWords,
    w1.1.drop (w1.1.length - 3) = w2.1.drop (w2.1.length - 3) → w1 = w2 := by decide

theorem word_not_internal_aux : ∀ w1 ∈ numberWords, ∀ w2 ∈ numberWords,
    ∀ off ∈ List.range' 1 w1.1.length,
    off + w2.1.length ≤ w1.1.length → ¬(w1.1.drop off).take w2.1.length = w2.1 := by decide

/-- No spelled word occurs strictly inside another one at a positive
offset. -/
theorem word_not_internal : ∀ w1 ∈ numberWords, ∀ w2 ∈ numberWords,
    ∀ off, 1 ≤ off → off + w2.1.length ≤ w1.1.length →
    ¬(w1.1.drop off).take w2.1.length = w2.1 := by
  intro w1 h1 w2 h2 off hoff hle
  have h3 := word_min_len w2 h2
  exact word_not_internal_aux w1 h1 w2 h2 off (mem_range'_one.mpr ⟨hoff, by omega⟩) hle

/-! ## Occurrence and ASCII helper lemmas -/

theorem occursAt_iff (l : List Char) (p : Nat) (w : List Char) :
    occursAt l p w = true ↔ (l.drop p).take w.length = w := by
  simp [occursAt]

theorem occursAt_bounds {l : List Char} {p : Nat} {w : List Char}
    (h : occursAt l p w = true) (hw : 1 ≤ w.length) : p + w.length ≤ l.length := by
  rw [occursAt_iff] at h
  have hlen := congrArg List.length h
  rw [List.length_take, List.length_drop] at hlen
  omega

theorem occursAt_getElem? {l : List Char} {p : Nat} {w : List Char}
    (h : occursAt l p w = true) : ∀ i < w.length, l[p + i]? = w[i]? := by
  rw [occursAt_iff] at h
  intro i hi
  conv_rhs => rw [← h]
  rw [List.getElem?_take_of_lt hi, List.getElem?_drop]

theorem isAsciiDigit_lt_128 {c : Char} (h : isAsciiDigit c = true) : c.toNat < 128 := by
  simp only [isAsciiDigit, Bool.and_eq_true, decide_eq_true_eq] at h
  omega

theorem digitVal_le_9 {c : Char} (h : isAsciiDigit c = true) : digitVal c ≤ 9 := by
  simp only [isAsciiDigit, Bool.and_eq_true, decide_eq_true_eq] at h
  simp only [digitVal]
  omega

theorem digit_char_eq_of_val_eq {c c' : Char} (h : isAsciiDigit c = true)
    (h' : isAsciiDigit c' = true) (hv : digitVal c = digitVal c') : c = c' := by
  simp only [isAsciiDigit, Bool.and_eq_true, decide_eq_true_eq] at h h'
  simp only [digitVal] at hv
  exact char_toNat_inj (by omega)

theorem parse_two_digits {a b : Char} (ha : isAsciiDigit a = true)
    (hb : isAsciiDigit b = true) :
    parseU32 [a, b] = some (digitVal a * 10 + digitVal b) := by
  have h9a := digitVal_le_9 ha
  have h9b := digitVal_le_9 hb
  rw [parseU32, if_pos ⟨by simp, by simp [ha, hb]⟩]
  simp only [List.foldl, Nat.zero_mul, Nat.zero_add]
  rw [if_pos (by omega)]

theorem asciiLine_mem {l : List Char} (h : asciiLine l = true) :
    ∀ c ∈ l, c.toNat < 128 := by
  simpa [asciiLine] using h

theorem utf8Bytes_ascii {c : Char} (h : c.toNat < 128) : utf8Bytes c = [c.toNat] := by
  simp [utf8Bytes, h]

theorem strBytes_ascii {l : List Char} (h : asciiLine l = true) :
    strBytes l = l.map Char.toNat := by
  induction l with
  | nil => rfl
  | cons c cs ih =>
    simp only [asciiLine, List.all_cons, Bool.and_eq_true, decide_eq_true_eq] at h
    simp only [strBytes, List.map_cons, utf8Bytes_ascii h.1, List.singleton_append,
      ih (by simp [asciiLine, h.2])]

theorem byteLen_ascii {l : List Char} (h : asciiLine l = true) : byteLen l = l.length := by
  simp [byteLen, strBytes_ascii h]

theorem isBoundary_ascii {l : List Char} (h : asciiLine l = true) :
    ∀ i ≤ l.length, isBoundary l i = true := by
  induction l with
  | nil =>
    intro i hi
    simp only [List.length_nil, Nat.le_zero] at hi
    subst hi; rfl
  | cons c cs ih =>
    intro i hi
    cases i with
    | zero => rfl
    | succ j =>
      simp only [asciiLine, List.all_cons, Bool.and_eq_true, decide_eq_true_eq] at h
      simp only [isBoundary, utf8Bytes_ascii h.1, List.length_singleton]
      rw [if_neg (by omega)]
      simp only [Nat.add_sub_cancel]
      exact ih (by simp [asciiLine, h.2]) j (by simpa using hi)

theorem sliceBytes_ascii {l : List Char} (h : asciiLine l = true) {a b : Nat}
    (hab : a ≤ b) (hb : b ≤ l.length) :
    sliceBytes l a b = some (((l.drop a).take (b - a)).map Char.toNat) := by
  simp only [sliceBytes, strBytes_ascii h]
  rw [if_pos, List.map_take, List.map_drop]
  simp only [Bool.and_eq_true, decide_eq_true_eq]
  exact ⟨⟨hab, isBoundary_ascii h a (by omega)⟩, isBoundary_ascii h b hb⟩

/-! ## Characterization of `specOccAt` -/

theorem word_fst_unique : ∀ x ∈ numberWords, ∀ y ∈ numberWords, x.1 = y.1 → x = y := by decide

theorem getElem?_of_drop_cons {l : List Char} {pos : Nat} {c : Char} {rest : List Char}
    (h : l.drop pos = c :: rest) : l[pos]? = some c := by
  have h0 := List.getElem?_drop l pos 0
  rw [h] at h0
  simpa using h0.symm

theorem drop_succ_of_drop_cons {l : List Char} {pos : Nat} {c : Char} {rest : List Char}
    (h : l.drop pos = c :: rest) : l.drop (pos + 1) = rest := by
  rw [← List.tail_drop, h]
  rfl

theorem lt_length_of_drop_cons {l : List Char} {pos : Nat} {c : Char} {rest : List Char}
    (h : l.drop pos = c :: rest) : pos < l.length := by
  have hl := congrArg List.length h
  simp only [List.length_drop, List.length_cons] at hl
  omega

theorem occursAt_take3 {l : List Char} {p : Nat} {w : List Char}
    (h : occursAt l p w = true) (h3 : 3 ≤ w.length) : (l.drop p).take 3 = w.take 3 := by
  rw [occursAt_iff] at h
  conv_rhs => rw [← h]
  rw [List.take_take, Nat.min_eq_left h3]

theorem specOccAt_ge_length {l : List Char} {p : Nat} (h : l.length ≤ p) :
    specOccAt l p = none := by
  simp [specOccAt, List.getElem?_eq_none h]

theorem specOccAt_digit {l : List Char} {p : Nat} {c : Char} (hc : l[p]? = some c)
    (hd : isAsciiDigit c = true) : specOccAt l p = some (digitVal c, 1) := by
  simp [specOccAt, hc, hd]

theorem specOccAt_word {l : List Char} {p : Nat} {c : Char} {w : List Char × Nat}
    (hc : l[p]? = some c) (hd : isAsciiDigit c = false) (hw : w ∈ numberWords)
    (hocc : occursAt l p w.1 = true) : specOccAt l p = some (w.2, w.1.length) := by
  simp only [specOccAt, hc, hd, Bool.false_eq_true, if_false]
  rw [find?_eq_some_of_unique numberWords _ w hw hocc ?uniq]
  · rfl
  case uniq =>
    intro w' hw' hocc'
    apply word_fst_unique w' hw' w hw
    have e1 := occursAt_take3 hocc' (word_min_len w' hw')
    have e2 := occursAt_take3 hocc (word_min_len w hw)
    have := word_take3_unique w' hw' w hw (by rw [← e1, e2])
    rw [this]

theorem specOccAt_none_char {l : List Char} {p : Nat} {c : Char} (hc : l[p]? = some c)
    (hd : isAsciiDigit c = false)
    (hnone : ∀ w ∈ numberWords, ¬occursAt l p w.1 = true) : specOccAt l p = none := by
  simp [specOccAt, hc, hd, List.find?_eq_none.mpr hnone]

theorem specOccAt_elim {l : List Char} {p : Nat} {v L : Nat}
    (h : specOccAt l p = some (v, L)) :
    ∃ c, l[p]? = some c ∧
      ((isAsciiDigit c = true ∧ v = digitVal c ∧ L = 1) ∨
       (isAsciiDigit c = false ∧
        ∃ w ∈ numberWords, occursAt l p w.1 = true ∧ v = w.2 ∧ L = w.1.length)) := by
  cases hc : l[p]? with
  | none => rw [specOccAt, hc] at h; cases h
  | some c =>
    refine ⟨c, rfl, ?_⟩
    cases hd : isAsciiDigit c with
    | true =>
      left
      rw [specOccAt] at h
      simp only [hc, hd, if_true] at h
      exact ⟨rfl, by injection h with h1; injection h1 with h1 h2; exact ⟨h1.symm, h2.symm⟩⟩
    | false =>
      right
      rw [specOccAt] at h
      simp only [hc, hd, Bool.false_eq_true, if_false, Option.map_eq_some'] at h
      obtain ⟨w, hfind, hw⟩ := h
      refine ⟨rfl, w, List.mem_of_find?_eq_some hfind, by simpa using List.find?_some hfind, ?_, ?_⟩
      · injection hw with h1 h2; exact h1.symm
      · injection hw with h1 h2; exact h2.symm

/-! ## Forward-scan correctness -/

/-- At a position with no digit occurrence, the forward scan steps. -/
theorem find_step_no_match {l : List Char} {pos : Nat} {c : Char} {rest : List Char}
    (hrem : l.drop pos = c :: rest) (hnone : specOccAt l pos = none) :
    find_aux (c :: rest) pos = find_aux rest (pos + 1) := by
  have hc : l[pos]? = some c := getElem?_of_drop_cons hrem
  have hd : isAsciiDigit c = false := by
    cases hd : isAsciiDigit c
    · rfl
    · rw [specOccAt_digit hc hd] at hnone; cases hnone
  simp only [find_aux, hd, Bool.false_eq_true, if_false]
  by_cases hlen : (c :: rest).length < LETTERS_DIGIT_MIN_LEN
  · rw [if_pos hlen]
  · rw [if_neg hlen]
    cases hfind : LETTERS_DIGITS.find?
        (fun e => (c :: rest).take LETTERS_DIGIT_MIN_LEN == e.probe) with
    | none => rfl
    | some e =>
      have hcond : (e.word.length ≤ (c :: rest).length &&
          (c :: rest).take e.word.length == e.word) = false := by
        cases hcond : (e.word.length ≤ (c :: rest).length &&
            (c :: rest).take e.word.length == e.word)
        · rfl
        · exfalso
          simp only [Bool.and_eq_true, decide_eq_true_eq, beq_iff_eq] at hcond
          have hocc : occursAt l pos e.word = true := by
            rw [occursAt_iff, hrem]; exact hcond.2
          obtain ⟨_, _, _, hmem, _, _⟩ :=
            fwd_table_facts e (List.mem_of_find?_eq_some hfind)
          rw [specOccAt_word hc hd hmem hocc] at hnone
          cases hnone
      simp only [hcond, Bool.false_eq_true, if_false]

/-- At a position with a digit occurrence, the forward scan returns an
ASCII digit character with that occurrence's value. -/
theorem find_step_match {l : List Char} {pos : Nat} {c : Char} {rest : List Char} {v L : Nat}
    (hrem : l.drop pos = c :: rest) (hocc : specOccAt l pos = some (v, L)) :
    ∃ d, find_aux (c :: rest) pos = ⟨some d, pos⟩ ∧ isAsciiDigit d = true ∧ digitVal d = v := by
  have hc : l[pos]? = some c := getElem?_of_drop_cons hrem
  obtain ⟨c', hc', hcases⟩ := specOccAt_elim hocc
  rw [hc] at hc'
  injection hc' with hc'
  subst hc'
  rcases hcases with ⟨hd, hv, _⟩ | ⟨hd, w, hw, hoccw, hv, _⟩
  · exact ⟨c, by simp [find_aux, hd], hd, hv.symm⟩
  · have h3 := word_min_len w hw
    have hbnd : pos + w.1.length ≤ l.length := occursAt_bounds hoccw (by omega)
    have hrlen : (c :: rest).length = l.length - pos := by
      rw [← hrem, List.length_drop]
    have hlen3 : ¬(c :: rest).length < LETTERS_DIGIT_MIN_LEN := by
      rw [hrlen]; unfold LETTERS_DIGIT_MIN_LEN; omega
    have hwin : (c :: rest).take LETTERS_DIGIT_MIN_LEN = w.1.take 3 := by
      rw [← hrem]; exact occursAt_take3 hoccw h3
    obtain ⟨e₀, he₀, he₀w, he₀v⟩ := word_has_fwd_entry w hw
    obtain ⟨hprobe₀, _, _, _, _, _⟩ := fwd_table_facts e₀ he₀
    cases hfind : LETTERS_DIGITS.find?
        (fun e => (c :: rest).take LETTERS_DIGIT_MIN_LEN == e.probe) with
    | none =>
      exfalso
      rw [List.find?_eq_none] at hfind
      refine hfind e₀ he₀ ?_
      show ((c :: rest).take LETTERS_DIGIT_MIN_LEN == e₀.probe) = true
      rw [beq_iff_eq, hprobe₀, he₀w]
      exact hwin
    | some e =>
      have hpe := List.find?_some hfind
      have hee := List.mem_of_find?_eq_some hfind
      obtain ⟨hprobe, h3e, hdig, hmem, _, _⟩ := fwd_table_facts e hee
      rw [beq_iff_eq] at hpe
      have heqw : w.1 = e.word := fwd_probe_unique_word w hw e hee (by rw [← hwin]; exact hpe)
      have hcheck : (e.word.length ≤ (c :: rest).length &&
          (c :: rest).take e.word.length == e.word) = true := by
        simp only [Bool.and_eq_true, decide_eq_true_eq, beq_iff_eq]
        constructor
        · rw [hrlen, ← heqw]; omega
        · rw [← hrem, ← heqw]; exact (occursAt_iff _ _ _).mp hoccw
      refine ⟨e.value, ?_, hdig, ?_⟩
      · simp only [find_aux, hd, Bool.false_eq_true, if_false]
        rw [if_neg hlen3, hfind]
        simp only [hcheck, if_true]
      · have hmem' : (w.1, digitVal e.value) ∈ numberWords := by rw [heqw]; exact hmem
        have := word_fst_unique _ hmem' w hw rfl
        rw [hv]
        exact congrArg Prod.snd this

/-- When no digit occurrence starts at or after `pos`, the forward scan
runs to the end of the line and reports no match with boundary equal to
the line length. -/
theorem find_aux_none (l : List Char) :
    ∀ rem pos, l.drop pos = rem → pos ≤ l.length →
    (∀ p, pos ≤ p → specOccAt l p = none) →
    find_aux rem pos = ⟨none, l.length⟩ := by
  intro rem
  induction rem with
  | nil =>
    intro pos hrem hlen _
    have hl := congrArg List.length hrem
    simp only [List.length_drop, List.length_nil] at hl
    have : pos = l.length := by omega
    rw [find_aux, this]
  | cons c rest ih =>
    intro pos hrem hlen hnone
    rw [find_step_no_match hrem (hnone pos le_rfl)]
    exact ih (pos + 1) (drop_succ_of_drop_cons hrem) (lt_length_of_drop_cons hrem)
      (fun p hp => hnone p (by omega))

/-- When the earliest digit occurrence at or after `pos` starts at `p`,
the forward scan returns an ASCII digit character carrying that
occurrence's value, with boundary `p`. -/
theorem find_aux_first (l : List Char) :
    ∀ rem pos p v L, l.drop pos = rem → pos ≤ p → specOccAt l p = some (v, L) →
    (∀ q, pos ≤ q → q < p → specOccAt l q = none) →
    ∃ d, find_aux rem pos = ⟨some d, p⟩ ∧ isAsciiDigit d = true ∧ digitVal d = v := by
  intro rem
  induction rem with
  | nil =>
    intro pos p v L hrem hle hocc _
    exfalso
    have hl := congrArg List.length hrem
    simp only [List.length_drop, List.length_nil] at hl
    rw [specOccAt_ge_length (by omega)] at hocc
    cases hocc
  | cons c rest ih =>
    intro pos p v L hrem hle hocc hmin
    rcases Nat.eq_or_lt_of_le hle with rfl | hlt
    · exact find_step_match hrem hocc
    · rw [find_step_no_match hrem (hmin pos le_rfl hlt)]
      exact ih (pos + 1) p v L (drop_succ_of_drop_cons hrem) (by omega) hocc
        (fun q h1 h2 => hmin q (by omega) h2)

/-! ## Characterization of `specOccEndAt` -/

theorem mem_of_getElem?_some {α : Type} {l : List α} {i : Nat} {c : α}
    (h : l[i]? = some c) : c ∈ l := by
  obtain ⟨hi, rfl⟩ := List.getElem?_eq_some_iff.mp h
  exact List.getElem_mem hi

/-- A sub-slice of an occurrence equals the corresponding sub-slice of
the word. -/
theorem occursAt_slice {l : List Char} {p : Nat} {w : List Char} {k m : Nat}
    (h : occursAt l p w = true) (hkm : k + m ≤ w.length) :
    (l.drop (p + k)).take m = (w.drop k).take m := by
  rw [occursAt_iff] at h
  conv_rhs => rw [← h]
  rw [List.drop_take, List.drop_drop, List.take_take, Nat.min_eq_left (by omega)]

/-- The last three characters of an occurrence of `w` ending at `q`
are the three characters of the line ending at `q`. -/
theorem occursAt_last3 {l : List Char} {p : Nat} {w : List Char}
    (h : occursAt l p w = true) (h3 : 3 ≤ w.length) :
    (l.drop (p + w.length - 3)).take 3 = w.drop (w.length - 3) := by
  have := occursAt_slice h (k := w.length - 3) (m := 3) (by omega)
  rw [show p + (w.length - 3) = p + w.length - 3 by omega] at this
  rw [this, List.take_of_length_le (by rw [List.length_drop]; omega)]

theorem specOccAt_len_pos {l : List Char} {p v L : Nat}
    (h : specOccAt l p = some (v, L)) : 1 ≤ L := by
  obtain ⟨c, _, hcases⟩ := specOccAt_elim h
  rcases hcases with ⟨_, _, rfl⟩ | ⟨_, w, hw, _, _, rfl⟩
  · omega
  · have := word_min_len w hw; omega

theorem specOccAt_end_le_length {l : List Char} {p v L : Nat}
    (h : specOccAt l p = some (v, L)) : p + L ≤ l.length := by
  obtain ⟨c, hc, hcases⟩ := specOccAt_elim h
  rcases hcases with ⟨_, _, rfl⟩ | ⟨_, w, hw, hocc, _, rfl⟩
  · obtain ⟨hp, _⟩ := List.getElem?_eq_some_iff.mp hc
    omega
  · exact occursAt_bounds hocc (by have := word_min_len w hw; omega)

theorem specOccEndAt_digit {l : List Char} {q : Nat} {c : Char} (hq : 1 ≤ q)
    (hc : l[q - 1]? = some c) (hd : isAsciiDigit c = true) :
    specOccEndAt l q = some (digitVal c, q - 1) := by
  rw [specOccEndAt, if_neg (by omega)]
  simp [hc, hd]

theorem specOccEndAt_word {l : List Char} {q : Nat} {c : Char} {w : List Char × Nat}
    (hq : 1 ≤ q) (hc : l[q - 1]? = some c) (hd : isAsciiDigit c = false)
    (hw : w ∈ numberWords) (hlen : w.1.length ≤ q)
    (hocc : occursAt l (q - w.1.length) w.1 = true) :
    specOccEndAt l q = some (w.2, q - w.1.length) := by
  rw [specOccEndAt, if_neg (by omega)]
  simp only [hc, hd, Bool.false_eq_true, if_false]
  rw [find?_eq_some_of_unique numberWords _ w hw (by simp [hlen, hocc]) ?uniq]
  · rfl
  case uniq =>
    intro w' hw' hp'
    simp only [Bool.and_eq_true, decide_eq_true_eq] at hp'
    obtain ⟨hlen', hocc'⟩ := hp'
    apply word_fst_unique w' hw' w hw
    have h3 := word_min_len w hw
    have h3' := word_min_len w' hw'
    have e1 := occursAt_last3 hocc' h3'
    have e2 := occursAt_last3 hocc h3
    rw [show q - w'.1.length + w'.1.length - 3 = q - 3 by omega] at e1
    rw [show q - w.1.length + w.1.length - 3 = q - 3 by omega] at e2
    have heq := word_last3_unique w' hw' w hw (by rw [← e1, ← e2])
    rw [heq]

theorem specOccEndAt_none_char {l : List Char} {q : Nat} {c : Char} (hq : 1 ≤ q)
    (hc : l[q - 1]? = some c) (hd : isAsciiDigit c = false)
    (hnone : ∀ w ∈ numberWords, ¬(w.1.length ≤ q ∧ occursAt l (q - w.1.length) w.1 = true)) :
    specOccEndAt l q = none := by
  rw [specOccEndAt, if_neg (by omega)]
  simp only [hc, hd, Bool.false_eq_true, if_false, Option.map_eq_none']
  rw [List.find?_eq_none]
  intro w hw
  simp only [Bool.and_eq_true, decide_eq_true_eq]
  exact fun h => hnone w hw ⟨h.1, h.2⟩

theorem specOccEndAt_elim {l : List Char} {q : Nat} {v p : Nat}
    (h : specOccEndAt l q = some (v, p)) :
    1 ≤ q ∧ ∃ c, l[q - 1]? = some c ∧
      ((isAsciiDigit c = true ∧ v = digitVal c ∧ p = q - 1) ∨
       (isAsciiDigit c = false ∧ ∃ w ∈ numberWords, w.1.length ≤ q ∧
        occursAt l (q - w.1.length) w.1 = true ∧ v = w.2 ∧ p = q - w.1.length)) := by
  rw [specOccEndAt] at h
  by_cases hq : q = 0
  · rw [if_pos hq] at h; cases h
  · rw [if_neg hq] at h
    refine ⟨by omega, ?_⟩
    cases hc : l[q - 1]? with
    | none => rw [hc] at h; cases h
    | some c =>
      refine ⟨c, rfl, ?_⟩
      rw [hc] at h
      cases hd : isAsciiDigit c with
      | true =>
        left
        simp only [hd, if_true] at h
        injection h with h1
        injection h1 with h1 h2
        exact ⟨rfl, h1.symm, h2.symm⟩
      | false =>
        right
        simp only [hd, Bool.false_eq_true, if_false, Option.map_eq_some'] at h
        obtain ⟨w, hfind, hw⟩ := h
        have hp := List.find?_some hfind
        simp only [Bool.and_eq_true, decide_eq_true_eq] at hp
        refine ⟨rfl, w, List.mem_of_find?_eq_some hfind, hp.1, hp.2, ?_, ?_⟩
        · injection hw with h1 h2; exact h1.symm
        · injection hw with h1 h2; exact h2.symm

/-- A digit occurrence yields an end-indexed occurrence at its end. -/
theorem specOccAt_to_end {l : List Char} {p v L : Nat}
    (h : specOccAt l p = some (v, L)) : specOccEndAt l (p + L) = some (v, p) := by
  obtain ⟨c, hc, hcases⟩ := specOccAt_elim h
  rcases hcases with ⟨hd, hv, rfl⟩ | ⟨hd, w, hw, hocc, hv, rfl⟩
  · have hstep : specOccEndAt l (p + 1) = some (digitVal c, p + 1 - 1) :=
      specOccEndAt_digit (by omega) (by simpa using hc) hd
    rw [hstep, hv]
    norm_num
  · have h3 := word_min_len w hw
    have hlast : l[p + w.1.length - 1]? = w.1[w.1.length - 1]? := by
      have := occursAt_getElem? hocc (w.1.length - 1) (by omega)
      rw [show p + (w.1.length - 1) = p + w.1.length - 1 by omega] at this
      exact this
    obtain ⟨c', hc'⟩ : ∃ c', w.1[w.1.length - 1]? = some c' := by
      have : w.1.length - 1 < w.1.length := by omega
      exact ⟨w.1[w.1.length - 1], List.getElem?_eq_getElem this⟩
    have hcm : c' ∈ w.1 := mem_of_getElem?_some hc'
    have hd' : isAsciiDigit c' = false := word_no_digit w hw c' hcm
    rw [hv]
    rw [specOccEndAt_word (by omega) (by rw [hlast]; exact hc') hd' hw (by omega)
      (by rw [show p + w.1.length - w.1.length = p by omega]; exact hocc)]
    rw [show p + w.1.length - w.1.length = p by omega]

/-- An end-indexed occurrence comes from a digit occurrence at its
start. -/
theorem specOccEndAt_to_occ {l : List Char} {q v p : Nat}
    (h : specOccEndAt l q = some (v, p)) :
    ∃ L, specOccAt l p = some (v, L) ∧ q = p + L := by
  obtain ⟨hq, c, hc, hcases⟩ := specOccEndAt_elim h
  rcases hcases with ⟨hd, hv, rfl⟩ | ⟨hd, w, hw, hlen, hocc, hv, rfl⟩
  · exact ⟨1, by rw [specOccAt_digit hc hd, hv], by omega⟩
  · have h3 := word_min_len w hw
    obtain ⟨c', hc'⟩ : ∃ c', w.1[0]? = some c' := by
      have : 0 < w.1.length := by omega
      exact ⟨w.1[0], List.getElem?_eq_getElem this⟩
    have hc0 : l[q - w.1.length]? = some c' := by
      have := occursAt_getElem? hocc 0 (by omega)
      simpa [hc'] using this
    have hd' : isAsciiDigit c' = false := word_no_digit w hw c' (mem_of_getElem?_some hc')
    exact ⟨w.1.length, by rw [specOccAt_word hc0 hd' hw hocc, hv], by omega⟩

/-- Ends of occurrences are strictly monotone in their starts. -/
theorem occ_end_strict_mono {l : List Char} {p1 p2 v1 v2 L1 L2 : Nat}
    (h1 : specOccAt l p1 = some (v1, L1)) (h2 : specOccAt l p2 = some (v2, L2))
    (hlt : p1 < p2) : p1 + L1 < p2 + L2 := by
  by_contra hcon
  push_neg at hcon
  have hL2 := specOccAt_len_pos h2
  obtain ⟨c1, hc1, hcases1⟩ := specOccAt_elim h1
  rcases hcases1 with ⟨_, _, rfl⟩ | ⟨hd1, w1, hw1, hocc1, hv1, rfl⟩
  · omega
  · obtain ⟨c2, hc2, hcases2⟩ := specOccAt_elim h2
    rcases hcases2 with ⟨hd2, _, rfl⟩ | ⟨hd2, w2, hw2, hocc2, hv2, rfl⟩
    · -- literal digit strictly inside a word: impossible
      have hi : p2 - p1 < w1.1.length := by omega
      have := occursAt_getElem? hocc1 (p2 - p1) hi
      rw [show p1 + (p2 - p1) = p2 by omega, hc2] at this
      have hmem : c2 ∈ w1.1 := mem_of_getElem?_some this.symm
      rw [word_no_digit w1 hw1 c2 hmem] at hd2
      cases hd2
    · -- a word strictly inside another word: impossible
      have hov : (l.drop p2).take w2.1.length = w2.1 := (occursAt_iff _ _ _).mp hocc2
      have hsl := occursAt_slice hocc1 (k := p2 - p1) (m := w2.1.length) (by omega)
      rw [show p1 + (p2 - p1) = p2 by omega, hov] at hsl
      exact word_not_internal w1 hw1 w2 hw2 (p2 - p1) (by omega) (by omega) hsl.symm

/-! ## Backward-scan correctness -/

/-- At an end position with no digit occurrence ending there, the
backward scan steps. -/
theorem r_find_step_no_match {l : List Char} {fp fuel pos : Nat} (hpos1 : 1 ≤ pos)
    (hpos : pos ≤ l.length) (hnone : specOccEndAt l pos = none) :
    r_find_aux l fp (fuel + 1) pos = r_find_aux l fp fuel (pos - 1) := by
  obtain ⟨c, hc⟩ : ∃ c, l[pos - 1]? = some c :=
    ⟨l[pos - 1], List.getElem?_eq_getElem (by omega)⟩
  have hgd : l.getD (pos - 1) ' ' = c := by rw [List.getD_eq_getElem?_getD, hc]; rfl
  have hd : isAsciiDigit c = false := by
    cases hd : isAsciiDigit c
    · rfl
    · rw [specOccEndAt_digit hpos1 hc hd] at hnone; cases hnone
  simp only [r_find_aux, hgd, hd, Bool.false_eq_true, if_false]
  by_cases hp3 : pos < LETTERS_DIGIT_MIN_LEN
  · rw [if_pos hp3]
  · rw [if_neg hp3]
    cases hfind : LETTERS_DIGITS_REV.find?
        (fun e => (l.drop (pos - LETTERS_DIGIT_MIN_LEN)).take LETTERS_DIGIT_MIN_LEN == e.probe) with
    | none => rfl
    | some e =>
      have hcond : (e.word.length ≤ pos &&
          (l.drop (pos - e.word.length)).take e.word.length == e.word) = false := by
        cases hcond : (e.word.length ≤ pos &&
            (l.drop (pos - e.word.length)).take e.word.length == e.word)
        · rfl
        · exfalso
          simp only [Bool.and_eq_true, decide_eq_true_eq, beq_iff_eq] at hcond
          have hocc : occursAt l (pos - e.word.length) e.word = true := by
            rw [occursAt_iff]; exact hcond.2
          obtain ⟨_, _, _, hmem, _, _⟩ :=
            rev_table_facts e (List.mem_of_find?_eq_some hfind)
          rw [specOccEndAt_word hpos1 hc hd hmem hcond.1 hocc] at hnone
          cases hnone
      simp only [hcond, Bool.false_eq_true, if_false]

/-- At an end position with a digit occurrence ending there, the
backward scan returns an ASCII digit character carrying that
occurrence's value. -/
theorem r_find_step_match {l : List Char} {fp fuel pos v p : Nat}
    (_hpos : pos ≤ l.length) (hocc : specOccEndAt l pos = some (v, p)) :
    ∃ d b, r_find_aux l fp (fuel + 1) pos = ⟨some d, b⟩ ∧
      isAsciiDigit d = true ∧ digitVal d = v := by
  obtain ⟨hq, c, hc, hcases⟩ := specOccEndAt_elim hocc
  have hgd : l.getD (pos - 1) ' ' = c := by rw [List.getD_eq_getElem?_getD, hc]; rfl
  rcases hcases with ⟨hd, hv, _⟩ | ⟨hd, w, hw, hlen, hoccw, hv, _⟩
  · refine ⟨c, pos, ?_, hd, hv.symm⟩
    simp only [r_find_aux, hgd, hd]
    rw [if_pos trivial]
  · have h3 := word_min_len w hw
    have hp3 : ¬pos < LETTERS_DIGIT_MIN_LEN := by unfold LETTERS_DIGIT_MIN_LEN; omega
    have hwin : (l.drop (pos - LETTERS_DIGIT_MIN_LEN)).take LETTERS_DIGIT_MIN_LEN =
        w.1.drop (w.1.length - 3) := by
      have := occursAt_last3 hoccw h3
      rw [show pos - w.1.length + w.1.length - 3 = pos - 3 by omega] at this
      exact this
    obtain ⟨e₀, he₀, he₀w, he₀v⟩ := word_has_rev_entry w hw
    obtain ⟨hprobe₀, _, _, _, _, _⟩ := rev_table_facts e₀ he₀
    cases hfind : LETTERS_DIGITS_REV.find?
        (fun e => (l.drop (pos - LETTERS_DIGIT_MIN_LEN)).take LETTERS_DIGIT_MIN_LEN == e.probe) with
    | none =>
      exfalso
      rw [List.find?_eq_none] at hfind
      refine hfind e₀ he₀ ?_
      show ((l.drop (pos - LETTERS_DIGIT_MIN_LEN)).take LETTERS_DIGIT_MIN_LEN == e₀.probe) = true
      rw [beq_iff_eq, hprobe₀, he₀w, hwin]
    | some e =>
      have hpe := List.find?_some hfind
      have hee := List.mem_of_find?_eq_some hfind
      obtain ⟨hprobe, h3e, hdig, hmem, _, _⟩ := rev_table_facts e hee
      rw [beq_iff_eq] at hpe
      have heqw : w.1 = e.word :=
        rev_probe_unique_word w hw e hee (by rw [← hwin]; exact hpe)
      have hcheck : (e.word.length ≤ pos &&
          (l.drop (pos - e.word.length)).take e.word.length == e.word) = true := by
        simp only [Bool.and_eq_true, decide_eq_true_eq, beq_iff_eq]
        refine ⟨by rw [← heqw]; omega, ?_⟩
        rw [← heqw]
        exact (occursAt_iff _ _ _).mp hoccw
      refine ⟨e.value, pos - e.word.length, ?_, hdig, ?_⟩
      · simp only [r_find_aux, hgd, hd, Bool.false_eq_true, if_false]
        rw [if_neg hp3, hfind]
        simp only [hcheck, if_true]
      · have hmem' : (w.1, digitVal e.value) ∈ numberWords := by rw [heqw]; exact hmem
        have := word_fst_unique _ hmem' w hw rfl
        rw [hv]
        exact congrArg Prod.snd this

/-- When no digit occurrence ends in `(found_pos, pos]`, the backward
scan reports no match with boundary `found_pos`. -/
theorem r_find_aux_none (l : List Char) (fp : Nat) :
    ∀ fuel pos, pos = fp + fuel → pos ≤ l.length →
    (∀ q, fp < q → q ≤ pos → specOccEndAt l q = none) →
    r_find_aux l fp fuel pos = ⟨none, fp⟩ := by
  intro fuel
  induction fuel with
  | zero =>
    intro pos hpos _ _
    rw [r_find_aux, hpos]
    norm_num
  | succ fuel ih =>
    intro pos hpos hle hnone
    rw [r_find_step_no_match (by omega) hle (hnone pos (by omega) le_rfl)]
    exact ih (pos - 1) (by omega) (by omega) (fun q h1 h2 => hnone q h1 (by omega))

/-- When the latest digit occurrence ending in `(found_pos, pos]` ends
at `q`, the backward scan returns an ASCII digit character carrying that
occurrence's value. -/
theorem r_find_aux_last (l : List Char) (fp : Nat) :
    ∀ fuel pos q v p, pos = fp + fuel → pos ≤ l.length →
    fp < q → q ≤ pos → specOccEndAt l q = some (v, p) →
    (∀ r, q < r → r ≤ pos → specOccEndAt l r = none) →
    ∃ d b, r_find_aux l fp fuel pos = ⟨some d, b⟩ ∧
      isAsciiDigit d = true ∧ digitVal d = v := by
  intro fuel
  induction fuel with
  | zero =>
    intro pos q v p hpos _ hq1 hq2 _ _
    omega
  | succ fuel ih =>
    intro pos q v p hpos hle hq1 hq2 hocc hmax
    rcases Nat.eq_or_lt_of_le hq2 with rfl | hlt
    · exact r_find_step_match hle hocc
    · rw [r_find_step_no_match (by omega) hle (hmax pos hlt le_rfl)]
      exact ih (pos - 1) q v p (by omega) (by omega) hq1 (by omega) hocc
        (fun r h1 h2 => hmax r h1 (by omega))

/-! ## First / last occurrence positions -/

theorem find?_range'_first (p : Nat → Bool) :
    ∀ n s q, (List.range' s n).find? p = some q →
      p q = true ∧ s ≤ q ∧ q < s + n ∧ ∀ r, s ≤ r → r < q → p r = false := by
  intro n
  induction n with
  | zero => intro s q h; cases h
  | succ n ih =>
    intro s q h
    rw [List.range'_succ, List.find?_cons] at h
    cases hp : p s with
    | true =>
      rw [hp] at h
      injection h with h
      subst h
      exact ⟨hp, le_rfl, by omega, fun r h1 h2 => by omega⟩
    | false =>
      rw [hp] at h
      obtain ⟨h1, h2, h3, h4⟩ := ih (s + 1) q h
      refine ⟨h1, by omega, by omega, fun r hr1 hr2 => ?_⟩
      rcases Nat.eq_or_lt_of_le hr1 with rfl | hgt
      · exact hp
      · exact h4 r hgt hr2

theorem find?_eq_head?_filter {α : Type} (p : α → Bool) (L : List α) :
    L.find? p = (L.filter p).head? := by
  induction L with
  | nil => rfl
  | cons a as ih =>
    rw [List.find?_cons, List.filter_cons]
    cases hpa : p a
    · simp only [Bool.false_eq_true, if_false]
      exact ih
    · rfl

theorem eq_none_of_isSome_false {α : Type} {x : Option α} (h : x.isSome = false) :
    x = none := by
  cases x
  · rfl
  · cases h

theorem specFirstPos_mem {l : List Char} {p : Nat} (h : specFirstPos l = some p) :
    ∃ v L, specOccAt l p = some (v, L) ∧ p < l.length ∧
      ∀ q, q < p → specOccAt l q = none := by
  rw [specFirstPos, List.range_eq_range'] at h
  obtain ⟨h1, _, h3, h4⟩ := find?_range'_first _ _ _ _ h
  obtain ⟨⟨v, L⟩, hvl⟩ := Option.isSome_iff_exists.mp h1
  refine ⟨v, L, hvl, by omega, fun q hq => ?_⟩
  by_cases hql : q < l.length
  · exact eq_none_of_isSome_false (h4 q (by omega) hq)
  · exact specOccAt_ge_length (by omega)

theorem specFirstPos_none_all {l : List Char} (h : specFirstPos l = none) :
    ∀ p, specOccAt l p = none := by
  intro p
  by_cases hp : p < l.length
  · rw [specFirstPos, List.find?_eq_none] at h
    have := h p (List.mem_range.mpr hp)
    rw [Bool.not_eq_true] at this
    exact eq_none_of_isSome_false this
  · exact specOccAt_ge_length (by omega)

theorem specLastPos_mem {l : List Char} {q : Nat} (h : specLastPos l = some q) :
    ∃ v L, specOccAt l q = some (v, L) ∧ q < l.length ∧
      ∀ r, r < l.length → (specOccAt l r).isSome = true → r ≤ q := by
  rw [specLastPos, List.range_eq_range'] at h
  obtain ⟨h1, _, h3, h4⟩ := find?_reverse_range'_spec _ _ _ _ h
  obtain ⟨⟨v, L⟩, hvl⟩ := Option.isSome_iff_exists.mp h1
  exact ⟨v, L, hvl, by omega, fun r hr hsome => h4 r (by omega) (by omega) hsome⟩

theorem specLastPos_isSome_of_occ {l : List Char} {p : Nat}
    (hp : p < l.length) (h : (specOccAt l p).isSome = true) :
    (specLastPos l).isSome = true := by
  rw [specLastPos, List.range_eq_range']
  exact find?_reverse_range'_isSome _ 0 l.length p (by omega) (by omega) h

theorem specFirstPos_isSome_iff {l : List Char} :
    (specFirstPos l).isSome = true ↔ specOccCount l ≠ 0 := by
  rw [specFirstPos, specOccCount, find?_eq_head?_filter]
  cases hf : (List.range l.length).filter (fun p => (specOccAt l p).isSome) with
  | nil => simp
  | cons a as => simp

theorem first_le_last {l : List Char} {p q : Nat} (hp : specFirstPos l = some p)
    (hq : specLastPos l = some q) : p ≤ q := by
  obtain ⟨v, L, hocc, hlt, _⟩ := specFirstPos_mem hp
  obtain ⟨_, _, _, _, hmax⟩ := specLastPos_mem hq
  exact hmax p hlt (by rw [hocc]; rfl)

theorem count_one_first_eq_last {l : List Char} (h : specOccCount l = 1) :
    ∃ p, specFirstPos l = some p ∧ specLastPos l = some p := by
  rw [specOccCount] at h
  obtain ⟨a, ha⟩ := List.length_eq_one.mp h
  refine ⟨a, ?_, ?_⟩
  · rw [specFirstPos, find?_eq_head?_filter, ha]; rfl
  · rw [specLastPos, find?_eq_head?_filter, List.filter_reverse, ha]; rfl

/-! ## Assembly: the extractor on ASCII lines (character level) -/

/-- When the line has no digit occurrence, the forward scan reports no
match with boundary equal to the line length. -/
theorem find_eq_of_none {l : List Char} (h : specFirstPos l = none) :
    find l = ⟨none, l.length⟩ :=
  find_aux_none l l 0 rfl (by omega) fun p _ => specFirstPos_none_all h p

/-- When the leftmost digit occurrence starts at `p`, the forward scan
returns a digit character with its value, with boundary `p`. -/
theorem find_eq_of_some {l : List Char} {p : Nat} (h : specFirstPos l = some p) :
    ∃ d v L, find l = ⟨some d, p⟩ ∧ isAsciiDigit d = true ∧
      specOccAt l p = some (v, L) ∧ digitVal d = v := by
  obtain ⟨v, L, hocc, hlt, hmin⟩ := specFirstPos_mem h
  obtain ⟨d, hfind, hdig, hval⟩ :=
    find_aux_first l l 0 p v L rfl (by omega) hocc (fun q _ hq => hmin q hq)
  exact ⟨d, v, L, hfind, hdig, hocc, hval⟩

/-- Bounded by the leftmost occurrence's start, the backward scan finds
a digit character carrying the rightmost occurrence's value. -/
theorem r_find_last {l : List Char} {p₁ q₂ v₂ L₂ : Nat}
    (hfirst : specFirstPos l = some p₁) (hlast : specLastPos l = some q₂)
    (hocc₂ : specOccAt l q₂ = some (v₂, L₂)) :
    ∃ d b, r_find l p₁ = ⟨some d, b⟩ ∧ isAsciiDigit d = true ∧ digitVal d = v₂ := by
  obtain ⟨v₁, L₁, hocc₁, hp₁, _⟩ := specFirstPos_mem hfirst
  obtain ⟨_, _, _, hq₂len, hmax⟩ := specLastPos_mem hlast
  have hple : p₁ ≤ q₂ := first_le_last hfirst hlast
  have hL₂ := specOccAt_len_pos hocc₂
  have hend₂ : q₂ + L₂ ≤ l.length := specOccAt_end_le_length hocc₂
  rw [r_find]
  apply r_find_aux_last l p₁ (l.length - p₁) l.length (q₂ + L₂) v₂ q₂
  · omega
  · omega
  · omega
  · omega
  · exact specOccAt_to_end hocc₂
  · intro r hr1 hr2
    cases hsome : specOccEndAt l r with
    | none => rfl
    | some vp =>
      exfalso
      obtain ⟨v', p'⟩ := vp
      obtain ⟨L', hocc', hrL⟩ := specOccEndAt_to_occ hsome
      have hL' := specOccAt_len_pos hocc'
      have hp'len : p' < l.length := by
        have := specOccAt_end_le_length hocc'
        omega
      have hple' : p' ≤ q₂ := hmax p' hp'len (by rw [hocc']; rfl)
      rcases Nat.eq_or_lt_of_le hple' with rfl | hlt'
      · rw [hocc₂] at hocc'
        injection hocc' with h1
        injection h1 with h1 h2
        omega
      · have := occ_end_strict_mono hocc' hocc₂ hlt'
        omega

/-- On a line with at least one digit occurrence, `extract_number`
returns leftmost value times ten plus rightmost value. -/
theorem extract_number_of_hasOcc {l : List Char} {p₁ : Nat}
    (h : specFirstPos l = some p₁) :
    extract_number l = some (specFirstVal l * 10 + specLastVal l) := by
  obtain ⟨d₁, v₁, L₁, hfind, hdig₁, hocc₁, hval₁⟩ := find_eq_of_some h
  obtain ⟨v₁', L₁', _, hp₁len, _⟩ := specFirstPos_mem h
  have hlast : (specLastPos l).isSome = true :=
    specLastPos_isSome_of_occ hp₁len (by rw [hocc₁]; rfl)
  obtain ⟨q₂, hq₂⟩ := Option.isSome_iff_exists.mp hlast
  obtain ⟨v₂, L₂, hocc₂, _, _⟩ := specLastPos_mem hq₂
  obtain ⟨d₂, b, hrfind, hdig₂, hval₂⟩ := r_find_last h hq₂ hocc₂
  have hfv : specFirstVal l = v₁ := by simp only [specFirstVal, h, hocc₁]; rfl
  have hlv : specLastVal l = v₂ := by simp only [specLastVal, hq₂, hocc₂]; rfl
  rw [extract_number]
  simp only [hfind, hrfind]
  rw [parse_two_digits hdig₁ hdig₂, hfv, hlv, hval₁, hval₂]

/-- On a line with no digit occurrence, `extract_number` is absent. -/
theorem extract_number_of_noOcc {l : List Char} (h : specFirstPos l = none) :
    extract_number l = none := by
  rw [extract_number]
  simp only [find_eq_of_none h]

/-! ## Byte-level invariants -/

theorem digitNext_some {rem : List Char} {c : Char} (h : digitNext rem = some c) :
    rem.head? = some c ∧ isAsciiDigit c = true := by
  rw [digitNext] at h
  cases hh : rem.head? with
  | none => rw [hh] at h; cases h
  | some c' =>
    rw [hh] at h
    cases hd : isAsciiDigit c' with
    | false => simp only [hd, Bool.false_eq_true, if_false] at h; cases h
    | true =>
      simp only [hd, if_true] at h
      injection h with h
      subst h
      exact ⟨rfl, hd⟩

/-- Any digit character the byte-level forward scan returns is an ASCII
digit. -/
theorem findB_aux_ok_digit (line : List Char) :
    ∀ fuel pos rem r c, findB_aux line fuel pos rem = .ok r → r.number = some c →
      isAsciiDigit c = true := by
  intro fuel
  induction fuel with
  | zero =>
    intro pos rem r c h hn
    rw [findB_aux] at h
    injection h with h
    subst h
    cases hn
  | succ fuel ih =>
    intro pos rem r c h hn
    rw [findB_aux] at h
    cases hdn : digitNext rem with
    | some c' =>
      simp only [hdn] at h
      injection h with h
      subst h
      injection hn with hn
      subst hn
      exact (digitNext_some hdn).2
    | none =>
      simp only [hdn] at h
      by_cases hlen : byteLen line - pos < LETTERS_DIGIT_MIN_LEN
      · rw [if_pos hlen] at h
        exact ih (pos + 1) rem.tail r c h hn
      · rw [if_neg hlen] at h
        cases hsl : sliceBytes line pos (pos + LETTERS_DIGIT_MIN_LEN) with
        | none => simp only [hsl] at h; cases h
        | some w =>
          simp only [hsl] at h
          cases hfind : LETTERS_DIGITS.find? (fun e => w == strBytes e.probe) with
          | none => simp only [hfind] at h; exact ih (pos + 1) rem.tail r c h hn
          | some e =>
            simp only [hfind] at h
            by_cases hwl : (strBytes e.word).length ≤ byteLen line - pos
            · rw [if_pos hwl] at h
              cases hsl2 : sliceBytes line pos (pos + (strBytes e.word).length) with
              | none => simp only [hsl2] at h; cases h
              | some w2 =>
                simp only [hsl2] at h
                by_cases hw2 : (w2 == strBytes e.word) = true
                · rw [if_pos hw2] at h
                  injection h with h
                  subst h
                  injection hn with hn
                  subst hn
                  obtain ⟨_, _, hdig, _, _, _⟩ :=
                    fwd_table_facts e (List.mem_of_find?_eq_some hfind)
                  exact hdig
                · rw [if_neg hw2] at h
                  exact ih (pos + 1) rem.tail r c h hn
            · rw [if_neg hwl] at h
              exact ih (pos + 1) rem.tail r c h hn

/-- Any digit character the byte-level backward scan returns is an
ASCII digit. -/
theorem r_findB_aux_ok_digit (line : List Char) :
    ∀ fuel pos rem r c, r_findB_aux line fuel pos rem = .ok r → r.number = some c →
      isAsciiDigit c = true := by
  intro fuel
  induction fuel with
  | zero =>
    intro pos rem r c h hn
    rw [r_findB_aux] at h
    injection h with h
    subst h
    cases hn
  | succ fuel ih =>
    intro pos rem r c h hn
    rw [r_findB_aux] at h
    cases hdn : digitNext rem with
    | some c' =>
      simp only [hdn] at h
      injection h with h
      subst h
      injection hn with hn
      subst hn
      exact (digitNext_some hdn).2
    | none =>
      simp only [hdn] at h
      by_cases hlen : pos < LETTERS_DIGIT_MIN_LEN
      · rw [if_pos hlen] at h
        exact ih (pos - 1) rem.tail r c h hn
      · rw [if_neg hlen] at h
        cases hsl : sliceBytes line (pos - LETTERS_DIGIT_MIN_LEN) pos with
        | none => simp only [hsl] at h; cases h
        | some w =>
          simp only [hsl] at h
          cases hfind : LETTERS_DIGITS_REV.find? (fun e => w == strBytes e.probe) with
          | none => simp only [hfind] at h; exact ih (pos - 1) rem.tail r c h hn
          | some e =>
            simp only [hfind] at h
            by_cases hwl : (strBytes e.word).length ≤ pos
            · rw [if_pos hwl] at h
              cases hsl2 : sliceBytes line (pos - (strBytes e.word).length) pos with
              | none => simp only [hsl2] at h; cases h
              | some w2 =>
                simp only [hsl2] at h
                by_cases hw2 : (w2 == strBytes e.word) = true
                · rw [if_pos hw2] at h
                  injection h with h
                  subst h
                  injection hn with hn
                  subst hn
                  obtain ⟨_, _, hdig, _, _, _⟩ :=
                    rev_table_facts e (List.mem_of_find?_eq_some hfind)
                  exact hdig
                · rw [if_neg hw2] at h
                  exact ih (pos - 1) rem.tail r c h hn
            · rw [if_neg hwl] at h
              exact ih (pos - 1) rem.tail r c h hn

/-- The byte-level forward scan reports "no match" only with boundary
equal to the byte length of the line. -/
theorem findB_aux_ok_none (line : List Char) :
    ∀ fuel pos rem r, findB_aux line fuel pos rem = .ok r → r.number = none →
      r.last_parsed_position = byteLen line := by
  intro fuel
  induction fuel with
  | zero =>
    intro pos rem r h _
    rw [findB_aux] at h
    injection h with h
    subst h
    rfl
  | succ fuel ih =>
    intro pos rem r h hn
    rw [findB_aux] at h
    cases hdn : digitNext rem with
    | some c' =>
      simp only [hdn] at h
      injection h with h
      subst h
      cases hn
    | none =>
      simp only [hdn] at h
      by_cases hlen : byteLen line - pos < LETTERS_DIGIT_MIN_LEN
      · rw [if_pos hlen] at h
        exact ih (pos + 1) rem.tail r h hn
      · rw [if_neg hlen] at h
        cases hsl : sliceBytes line pos (pos + LETTERS_DIGIT_MIN_LEN) with
        | none => simp only [hsl] at h; cases h
        | some w =>
          simp only [hsl] at h
          cases hfind : LETTERS_DIGITS.find? (fun e => w == strBytes e.probe) with
          | none => simp only [hfind] at h; exact ih (pos + 1) rem.tail r h hn
          | some e =>
            simp only [hfind] at h
            by_cases hwl : (strBytes e.word).length ≤ byteLen line - pos
            · rw [if_pos hwl] at h
              cases hsl2 : sliceBytes line pos (pos + (strBytes e.word).length) with
              | none => simp only [hsl2] at h; cases h
              | some w2 =>
                simp only [hsl2] at h
                by_cases hw2 : (w2 == strBytes e.word) = true
                · rw [if_pos hw2] at h
                  injection h with h
                  subst h
                  cases hn
                · rw [if_neg hw2] at h
                  exact ih (pos + 1) rem.tail r h hn
            · rw [if_neg hwl] at h
              exact ih (pos + 1) rem.tail r h hn

/-! ## Bridge: on ASCII lines the byte-level scans equal the
character-level scans and never panic -/

theorem beq_map_charToNat (x y : List Char) :
    (x.map Char.toNat == y.map Char.toNat) = (x == y) := by
  cases h : x == y with
  | true =>
    rw [beq_iff_eq] at h
    rw [h, beq_self_eq_true]
  | false =>
    rw [beq_eq_false_iff_ne] at h
    rw [beq_eq_false_iff_ne]
    intro hmap
    exact h ((map_charToNat_eq_iff x y).mp hmap)

theorem digitNext_cons (c : Char) (rest : List Char) :
    digitNext (c :: rest) = if isAsciiDigit c then some c else none := rfl

theorem findB_aux_ascii (l : List Char) (ha : asciiLine l = true) :
    ∀ fuel pos, pos + fuel = l.length →
    findB_aux l fuel pos (l.drop pos) = .ok (find_aux (l.drop pos) pos) := by
  intro fuel
  induction fuel with
  | zero =>
    intro pos hpos
    have hp : pos = l.length := by omega
    subst hp
    rw [List.drop_length, findB_aux, find_aux, byteLen_ascii ha]
  | succ fuel ih =>
    intro pos hpos
    have hpl : pos < l.length := by omega
    obtain ⟨c, rest, hrem⟩ : ∃ c rest, l.drop pos = c :: rest :=
      ⟨l[pos], l.drop (pos + 1), List.drop_eq_getElem_cons hpl⟩
    have hrest : rest = l.drop (pos + 1) := (drop_succ_of_drop_cons hrem).symm
    rw [hrem, findB_aux, digitNext_cons]
    have hlc : (c :: rest).length = l.length - pos := by
      rw [← hrem, List.length_drop]
    cases hd : isAsciiDigit c with
    | true =>
      simp only [if_true]
      rw [find_aux]
      simp only [hd, if_true]
    | false =>
      simp only [Bool.false_eq_true, if_false]
      rw [find_aux]
      simp only [hd, Bool.false_eq_true, if_false]
      have hbl : byteLen l = l.length := byteLen_ascii ha
      have htl : (c :: rest).tail = rest := rfl
      by_cases h3 : (c :: rest).length < LETTERS_DIGIT_MIN_LEN
      · rw [if_pos h3, if_pos (by rw [hbl]; unfold LETTERS_DIGIT_MIN_LEN at h3 ⊢; omega)]
        rw [htl, hrest]
        exact ih (pos + 1) (by omega)
      · rw [if_neg h3, if_neg (by rw [hbl]; unfold LETTERS_DIGIT_MIN_LEN at h3 ⊢; omega)]
        have hsl : sliceBytes l pos (pos + LETTERS_DIGIT_MIN_LEN) =
            some (((c :: rest).take LETTERS_DIGIT_MIN_LEN).map Char.toNat) := by
          rw [sliceBytes_ascii ha (by omega)
            (by unfold LETTERS_DIGIT_MIN_LEN at h3 ⊢; omega)]
          rw [show pos + LETTERS_DIGIT_MIN_LEN - pos = LETTERS_DIGIT_MIN_LEN by omega, hrem]
        simp only [hsl]
        have hfq : LETTERS_DIGITS.find?
              (fun e => ((c :: rest).take LETTERS_DIGIT_MIN_LEN).map Char.toNat ==
                strBytes e.probe) =
            LETTERS_DIGITS.find?
              (fun e => (c :: rest).take LETTERS_DIGIT_MIN_LEN == e.probe) := by
          apply find?_congr_pred
          intro e he
          obtain ⟨_, _, _, _, hpa, _⟩ := fwd_table_facts e he
          rw [strBytes_ascii hpa, beq_map_charToNat]
        rw [hfq]
        cases hcf : LETTERS_DIGITS.find?
            (fun e => (c :: rest).take LETTERS_DIGIT_MIN_LEN == e.probe) with
        | none =>
          simp only
          rw [htl, hrest]
          exact ih (pos + 1) (by omega)
        | some e =>
          simp only
          obtain ⟨_, _, _, _, _, hwa⟩ := fwd_table_facts e (List.mem_of_find?_eq_some hcf)
          have hwlen : (strBytes e.word).length = e.word.length := by
            rw [strBytes_ascii hwa, List.length_map]
          by_cases hwl : e.word.length ≤ (c :: rest).length
          · rw [if_pos (by rw [hwlen, hbl]; omega)]
            have hsl2 : sliceBytes l pos (pos + (strBytes e.word).length) =
                some (((c :: rest).take e.word.length).map Char.toNat) := by
              rw [sliceBytes_ascii ha (by omega) (by rw [hwlen]; omega)]
              rw [show pos + (strBytes e.word).length - pos = (strBytes e.word).length by omega,
                hwlen, hrem]
            simp only [hsl2]
            have hw2q : (((c :: rest).take e.word.length).map Char.toNat ==
                strBytes e.word) = ((c :: rest).take e.word.length == e.word) := by
              rw [strBytes_ascii hwa, beq_map_charToNat]
            rw [hw2q]
            cases hw2 : ((c :: rest).take e.word.length == e.word) with
            | true =>
              rw [if_pos rfl]
              have hcc : (decide (e.word.length ≤ (c :: rest).length) && true) = true := by
                rw [Bool.and_true, decide_eq_true_eq]; exact hwl
              rw [if_pos hcc]
            | false =>
              simp only [Bool.false_eq_true, if_false, Bool.and_false]
              rw [htl, hrest]
              exact ih (pos + 1) (by omega)
          · rw [if_neg (by rw [hwlen, hbl]; omega)]
            have hdec : decide (e.word.length ≤ (c :: rest).length) = false := by
              rw [decide_eq_false_iff_not]; exact hwl
            simp only [hdec, Bool.false_and, Bool.false_eq_true, if_false]
            rw [htl, hrest]
            exact ih (pos + 1) (by omega)

/-- On an ASCII line the byte-level forward scan never panics and
agrees with the character-level forward scan. -/
theorem findB_ascii {l : List Char} (ha : asciiLine l = true) :
    findB l = .ok (find l) := by
  rw [findB, find, byteLen_ascii ha]
  have := findB_aux_ascii l ha l.length 0 (by omega)
  simpa using this

theorem r_findB_aux_ascii (l : List Char) (ha : asciiLine l = true) (fp : Nat) :
    ∀ fuel pos, pos = fp + fuel → pos ≤ l.length →
    r_findB_aux l fuel pos (l.reverse.drop (l.length - pos)) =
      .ok (r_find_aux l fp fuel pos) := by
  intro fuel
  induction fuel with
  | zero =>
    intro pos _ _
    rw [r_findB_aux, r_find_aux]
  | succ fuel ih =>
    intro pos hpos hple
    have hpos1 : 1 ≤ pos := by omega
    set rem := l.reverse.drop (l.length - pos) with hrem
    have hhead : rem.head? = some l[pos - 1] := by
      rw [hrem, List.head?_drop]
      rw [List.getElem?_reverse (by omega)]
      rw [show l.length - 1 - (l.length - pos) = pos - 1 by omega]
      exact List.getElem?_eq_getElem (by omega)
    set c := l[pos - 1] with hcdef
    have hgd : l.getD (pos - 1) ' ' = c := by
      rw [List.getD_eq_getElem?_getD, List.getElem?_eq_getElem (by omega)]
      rfl
    have hdn : digitNext rem = if isAsciiDigit c then some c else none := by
      rw [digitNext, hhead]
    have htl : rem.tail = l.reverse.drop (l.length - (pos - 1)) := by
      rw [hrem, List.tail_drop]
      congr 1
      omega
    rw [r_findB_aux, hdn, r_find_aux, hgd]
    cases hd : isAsciiDigit c with
    | true => simp only [if_true]
    | false =>
      simp only [Bool.false_eq_true, if_false]
      by_cases h3 : pos < LETTERS_DIGIT_MIN_LEN
      · rw [if_pos h3, if_pos h3, htl]
        exact ih (pos - 1) (by omega) (by omega)
      · rw [if_neg h3, if_neg h3]
        have hsl : sliceBytes l (pos - LETTERS_DIGIT_MIN_LEN) pos =
            some (((l.drop (pos - LETTERS_DIGIT_MIN_LEN)).take LETTERS_DIGIT_MIN_LEN).map
              Char.toNat) := by
          rw [sliceBytes_ascii ha (by omega) hple]
          rw [show pos - (pos - LETTERS_DIGIT_MIN_LEN) = LETTERS_DIGIT_MIN_LEN by
            unfold LETTERS_DIGIT_MIN_LEN at h3 ⊢; omega]
        simp only [hsl]
        have hfq : LETTERS_DIGITS_REV.find?
              (fun e => ((l.drop (pos - LETTERS_DIGIT_MIN_LEN)).take
                LETTERS_DIGIT_MIN_LEN).map Char.toNat == strBytes e.probe) =
            LETTERS_DIGITS_REV.find?
              (fun e => (l.drop (pos - LETTERS_DIGIT_MIN_LEN)).take LETTERS_DIGIT_MIN_LEN ==
                e.probe) := by
          apply find?_congr_pred
          intro e he
          obtain ⟨_, _, _, _, hpa, _⟩ := rev_table_facts e he
          rw [strBytes_ascii hpa, beq_map_charToNat]
        rw [hfq]
        cases hcf : LETTERS_DIGITS_REV.find?
            (fun e => (l.drop (pos - LETTERS_DIGIT_MIN_LEN)).take LETTERS_DIGIT_MIN_LEN ==
              e.probe) with
        | none =>
          simp only
          rw [htl]
          exact ih (pos - 1) (by omega) (by omega)
        | some e =>
          simp only
          obtain ⟨_, _, _, _, _, hwa⟩ := rev_table_facts e (List.mem_of_find?_eq_some hcf)
          have hwlen : (strBytes e.word).length = e.word.length := by
            rw [strBytes_ascii hwa, List.length_map]
          by_cases hwl : e.word.length ≤ pos
          · rw [if_pos (by rw [hwlen]; omega)]
            have hsl2 : sliceBytes l (pos - (strBytes e.word).length) pos =
                some (((l.drop (pos - e.word.length)).take e.word.length).map Char.toNat) := by
              rw [sliceBytes_ascii ha (by omega) hple, hwlen]
              rw [show pos - (pos - e.word.length) = e.word.length by omega]
            simp only [hsl2]
            have hw2q : (((l.drop (pos - e.word.length)).take e.word.length).map Char.toNat ==
                strBytes e.word) = ((l.drop (pos - e.word.length)).take e.word.length ==
                e.word) := by
              rw [strBytes_ascii hwa, beq_map_charToNat]
            rw [hw2q]
            cases hw2 : ((l.drop (pos - e.word.length)).take e.word.length == e.word) with
            | true =>
              rw [if_pos rfl]
              have hcc : (decide (e.word.length ≤ pos) && true) = true := by
                rw [Bool.and_true, decide_eq_true_eq]; exact hwl
              rw [if_pos hcc, hwlen]
            | false =>
              simp only [Bool.false_eq_true, if_false, Bool.and_false]
              rw [htl]
              exact ih (pos - 1) (by omega) (by omega)
          · rw [if_neg (by rw [hwlen]; omega)]
            have hdec : decide (e.word.length ≤ pos) = false := by
              rw [decide_eq_false_iff_not]; exact hwl
            simp only [hdec, Bool.false_and, Bool.false_eq_true, if_false]
            rw [htl]
            exact ih (pos - 1) (by omega) (by omega)

/-- On an ASCII line the byte-level backward scan never panics and
agrees with the character-level backward scan, for every bound. -/
theorem r_findB_ascii {l : List Char} (ha : asciiLine l = true) (fp : Nat) :
    r_findB l fp = .ok (r_find l fp) := by
  rw [r_findB, r_find, byteLen_ascii ha]
  by_cases hfp : fp ≤ l.length
  · have := r_findB_aux_ascii l ha fp (l.length - fp) l.length (by omega) le_rfl
    rw [show l.length - l.length = 0 by omega] at this
    simpa using this
  · rw [show l.length - fp = 0 by omega, r_findB_aux, r_find_aux]

/-- On an ASCII line the byte-level extractor never panics and agrees
with the character-level extractor. -/
theorem extract_numberB_ascii {l : List Char} (ha : asciiLine l = true) :
    extract_numberB l = .ok (extract_number l) := by
  rw [extract_numberB, findB_ascii ha]
  simp only
  rw [r_findB_ascii ha]
  simp only
  rw [extract_number]
  cases (find l).number with
  | some fst =>
    cases (r_find l (find l).last_parsed_position).number with
    | some lst => rfl
    | none => rfl
  | none => rfl

/-! ## Aggregator invariants -/

theorem U32MOD_pos : 0 < U32MOD := by rw [U32MOD]; norm_num

/-- One successful aggregator step: the lines-read counter increments,
the sum gains exactly the line's calibration value, the incorrect
counter increments exactly for incorrect lines (all mod `2 ^ 32`). -/
theorem specRunSum_cons (r : Except Unit (List Char)) (rs : List (Except Unit (List Char))) :
    specRunSum (r :: rs) = specLineValue r + specRunSum rs := by
  rw [specRunSum, specRunSum, List.map_cons, List.sum_cons]

theorem specRunIncorrect_cons (r : Except Unit (List Char))
    (rs : List (Except Unit (List Char))) :
    specRunIncorrect (r :: rs) =
      (if specLineIncorrect r then 1 else 0) + specRunIncorrect rs := by
  rw [specRunIncorrect, specRunIncorrect, List.filter_cons]
  cases specLineIncorrect r
  · simp
  · simp [Nat.add_comm]

theorem aggStep_ok {st st' : RunTotals} {res : Except Unit (List Char)}
    (hsum : st.total_sum < U32MOD) (hinc : st.incorrect_lines < U32MOD)
    (h : aggStep st res = .ok st') :
    st'.parsed_lines = (st.parsed_lines + 1) % U32MOD ∧
    st'.total_sum = (st.total_sum + specLineValue res) % U32MOD ∧
    st'.incorrect_lines =
      (st.incorrect_lines + (if specLineIncorrect res then 1 else 0)) % U32MOD := by
  cases res with
  | error e =>
    rw [aggStep] at h
    injection h with h
    subst h
    refine ⟨rfl, ?_, ?_⟩
    · simp only [specLineValue]
      rw [Nat.add_zero, Nat.mod_eq_of_lt hsum]
    · simp only [specLineIncorrect, Bool.false_eq_true, if_false]
      rw [Nat.add_zero, Nat.mod_eq_of_lt hinc]
  | ok l =>
    rw [aggStep] at h
    by_cases hemp : l.isEmpty = true
    · simp only [hemp, if_true] at h
      injection h with h
      subst h
      refine ⟨rfl, ?_, ?_⟩
      · simp only [specLineValue, hemp, if_true]
        rw [Nat.add_zero, Nat.mod_eq_of_lt hsum]
      · simp only [specLineIncorrect, hemp, Bool.true_or, if_true]
    · simp only [hemp, Bool.false_eq_true, if_false] at h
      cases hex : extract_numberB l with
      | error e =>
        simp only [hex] at h
        exact Except.noConfusion h
      | ok o =>
        cases o with
        | some v =>
          simp only [hex] at h
          injection h with h
          subst h
          refine ⟨rfl, ?_, ?_⟩
          · simp only [specLineValue, hemp, Bool.false_eq_true, if_false, hex]
          · simp only [specLineIncorrect, hemp, hex, Bool.false_or, Bool.false_eq_true,
              if_false]
            rw [Nat.add_zero, Nat.mod_eq_of_lt hinc]
        | none =>
          simp only [hex] at h
          injection h with h
          subst h
          refine ⟨rfl, ?_, ?_⟩
          · simp only [specLineValue, hemp, Bool.false_eq_true, if_false, hex]
            rw [Nat.add_zero, Nat.mod_eq_of_lt hsum]
          · simp only [specLineIncorrect, hemp, hex, Bool.false_or, if_true]

/-- The aggregator loop from any in-range state: final counters are the
initial ones plus lines consumed, the per-line calibration values, and
the incorrect classifications (all mod `2 ^ 32`). -/
theorem processFrom_ok (lines : List (Except Unit (List Char))) :
    ∀ st st', st.parsed_lines < U32MOD → st.total_sum < U32MOD →
    st.incorrect_lines < U32MOD →
    processFrom st lines = .ok st' →
    st'.parsed_lines = (st.parsed_lines + lines.length) % U32MOD ∧
    st'.total_sum = (st.total_sum + specRunSum lines) % U32MOD ∧
    st'.incorrect_lines = (st.incorrect_lines + specRunIncorrect lines) % U32MOD := by
  induction lines with
  | nil =>
    intro st st' hpar hsum hinc h
    injection h with h
    subst h
    refine ⟨?_, ?_, ?_⟩
    · rw [List.length_nil, Nat.add_zero, Nat.mod_eq_of_lt hpar]
    · rw [specRunSum]
      simp only [List.map_nil, List.sum_nil]
      rw [Nat.add_zero, Nat.mod_eq_of_lt hsum]
    · rw [specRunIncorrect]
      simp only [List.filter_nil, List.length_nil]
      rw [Nat.add_zero, Nat.mod_eq_of_lt hinc]
  | cons r rs ih =>
    intro st st' hpar hsum hinc h
    rw [processFrom] at h
    cases ha : aggStep st r with
    | error e =>
      simp only [ha] at h
      exact Except.noConfusion h
    | ok st1 =>
      simp only [ha] at h
      obtain ⟨hp1, hs1, hi1⟩ := aggStep_ok hsum hinc ha
      have hb0 : st1.parsed_lines < U32MOD := by rw [hp1]; exact Nat.mod_lt _ U32MOD_pos
      have hb1 : st1.total_sum < U32MOD := by rw [hs1]; exact Nat.mod_lt _ U32MOD_pos
      have hb2 : st1.incorrect_lines < U32MOD := by rw [hi1]; exact Nat.mod_lt _ U32MOD_pos
      obtain ⟨hp2, hs2, hi2⟩ := ih st1 st' hb0 hb1 hb2 h
      refine ⟨?_, ?_, ?_⟩
      · rw [hp2, hp1, Nat.mod_add_mod, List.length_cons]
        congr 1
        omega
      · rw [hs2, hs1, Nat.mod_add_mod, specRunSum_cons]
        congr 1
        omega
      · rw [hi2, hi1, Nat.mod_add_mod, specRunIncorrect_cons]
        congr 1
        omega

/-- When every decoded line is ASCII the loop runs to completion (no
line-level defect halts the run). -/
theorem processFrom_completes :
    ∀ lines : List (Except Unit (List Char)), asciiRun lines = true →
    ∀ st, ∃ st', processFrom st lines = .ok st' := by
  intro lines
  induction lines with
  | nil => exact fun _ st => ⟨st, rfl⟩
  | cons r rs ih =>
    intro h st
    rw [asciiRun, List.all_cons, Bool.and_eq_true] at h
    obtain ⟨hr, hrs⟩ := h
    have hstep : ∃ st1, aggStep st r = .ok st1 := by
      cases r with
      | error e => exact ⟨_, rfl⟩
      | ok l =>
        rw [aggStep]
        by_cases hemp : l.isEmpty = true
        · simp only [hemp, if_true]
          exact ⟨_, rfl⟩
        · simp only [hemp, Bool.false_eq_true, if_false]
          have hal : asciiLine l = true := hr
          rw [extract_numberB_ascii hal]
          cases extract_number l with
          | some v => exact ⟨_, rfl⟩
          | none => exact ⟨_, rfl⟩
    obtain ⟨st1, hst1⟩ := hstep
    obtain ⟨st', hst'⟩ := ih (by rw [asciiRun]; exact hrs) st1
    refine ⟨st', ?_⟩
    rw [processFrom]
    simp only [hst1]
    exact hst'

/-! ## Shared assembly lemmas for the claims -/

/-- On an ASCII line with exactly one digit occurrence, the forward scan
finds it, the backward scan bounded by the forward boundary re-finds the
same digit character, and the extractor returns the digit doubled. -/
theorem single_occ_refind {l : List Char} (h1 : specOccCount l = 1) :
    ∃ d p b, find l = ⟨some d, p⟩ ∧ r_find l p = ⟨some d, b⟩ ∧ isAsciiDigit d = true ∧
      extract_number l = some (11 * specFirstVal l) := by
  obtain ⟨p, hfp, hlp⟩ := count_one_first_eq_last h1
  obtain ⟨d, v, L, hfind, hdig, hocc, hval⟩ := find_eq_of_some hfp
  obtain ⟨d₂, b, hrfind, hdig₂, hval₂⟩ := r_find_last hfp hlp hocc
  have hdd : d₂ = d := digit_char_eq_of_val_eq hdig₂ hdig (by rw [hval, hval₂])
  subst hdd
  have hfv : specFirstVal l = v := by simp only [specFirstVal, hfp, hocc]; rfl
  have hlv : specLastVal l = v := by simp only [specLastVal, hlp, hocc]; rfl
  have hex := extract_number_of_hasOcc hfp
  rw [hfv, hlv] at hex
  refine ⟨d₂, p, b, hfind, hrfind, hdig₂, ?_⟩
  rw [hex, hfv]
  congr 1
  omega

theorem firstPos_some_of_count_ne {l : List Char} (h : specOccCount l ≠ 0) :
    ∃ p, specFirstPos l = some p :=
  Option.isSome_iff_exists.mp (specFirstPos_isSome_iff.mpr h)

theorem firstPos_none_of_count_eq {l : List Char} (h : specOccCount l = 0) :
    specFirstPos l = none := by
  cases hf : specFirstPos l with
  | none => rfl
  | some p =>
    have hs : (specFirstPos l).isSome = true := by rw [hf]; rfl
    exact absurd h (specFirstPos_isSome_iff.mp hs)

/-! ## The claims -/

/-- Claim C1, counterexample: the line `"éaa1"` contains a digit (one
occurrence), yet `extract_number` does not return a value at all: the
scan panics slicing the three-byte window at byte 1, inside the
two-byte character `é`. -/
theorem C1_cex :
    specOccCount "éaa1".data = 1 ∧ extract_numberB "éaa1".data = .error () ∧
      ¬∃ v, extract_numberB "éaa1".data = .ok (some v) := by
  refine ⟨by decide, rfl, ?_⟩
  rintro ⟨v, hv⟩
  rw [show extract_numberB "éaa1".data = .error () from rfl] at hv
  exact Except.noConfusion hv

/-- Claim C1 (amended to ASCII lines): on every ASCII line containing at
least one digit occurrence (literal ASCII digit or spelled-out word),
`extract_number` returns `first_digit * 10 + last_digit`, where first
and last are the values at the leftmost and rightmost occurrence in
reading order, counting literal and spelled occurrences, spelled words
may overlap, and each scan reports the nearest valid match from its
direction. -/
theorem C1_extract_first_last (l : List Char) (ha : asciiLine l = true)
    (hocc : specOccCount l ≠ 0) :
    extract_numberB l = .ok (some (specFirstVal l * 10 + specLastVal l)) := by
  obtain ⟨p, hp⟩ := firstPos_some_of_count_ne hocc
  rw [extract_numberB_ascii ha, extract_number_of_hasOcc hp]

/-- Witness for C1 at the overlapping-words line `"twone"`: value
`2 * 10 + 1 = 21`. -/
theorem C1_witness :
    asciiLine "twone".data = true ∧ specOccCount "twone".data ≠ 0 ∧
      specFirstVal "twone".data * 10 + specLastVal "twone".data = 21 ∧
      extract_numberB "twone".data = .ok (some (specFirstVal "twone".data * 10 +
        specLastVal "twone".data)) :=
  ⟨rfl, by decide, rfl, C1_extract_first_last "twone".data rfl (by decide)⟩

/-- Claim C2, counterexample: the literal digit `0` is matched by the
scans (`is_ascii_digit` accepts `'0'`), so the line `"01"` yields the
calibration value 1, below the claimed lower bound 11. -/
theorem C2_cex :
    extract_numberB "01".data = .ok (some 1) ∧ ¬11 ≤ (1 : Nat) :=
  ⟨rfl, by decide⟩

/-- Claim C2 (amended): every value `extract_number` returns lies in
`[0, 99]` — both matched characters are ASCII digits `'0'..'9'`, so the
value is at most `9 * 10 + 9`. -/
theorem C2_value_range (l : List Char) :
    (∀ v, extract_numberB l = .ok (some v) → v ≤ 99) ∧
    (∀ r c, findB l = .ok r → r.number = some c → isAsciiDigit c = true) ∧
    (∀ fp r c, r_findB l fp = .ok r → r.number = some c → isAsciiDigit c = true) := by
  have hfwd : ∀ r c, findB l = .ok r → r.number = some c → isAsciiDigit c = true := by
    intro r c h hn
    rw [findB] at h
    exact findB_aux_ok_digit l (byteLen l) 0 l r c h hn
  have hbwd : ∀ fp r c, r_findB l fp = .ok r → r.number = some c →
      isAsciiDigit c = true := by
    intro fp r c h hn
    rw [r_findB] at h
    exact r_findB_aux_ok_digit l (byteLen l - fp) (byteLen l) l.reverse r c h hn
  refine ⟨?_, hfwd, hbwd⟩
  intro v h
  rw [extract_numberB] at h
  cases hf : findB l with
  | error e => rw [hf] at h; cases h
  | ok res =>
    rw [hf] at h
    cases hr : r_findB l res.last_parsed_position with
    | error e =>
      simp only [hr] at h
      exact Except.noConfusion h
    | ok r_res =>
      simp only [hr] at h
      cases hn1 : res.number with
      | none =>
        cases hn2 : r_res.number with
        | none =>
          simp only [hn1, hn2] at h
          injection h with h
          exact Option.noConfusion h
        | some lst =>
          simp only [hn1, hn2] at h
          injection h with h
          exact Option.noConfusion h
      | some fst =>
        cases hn2 : r_res.number with
        | none =>
          simp only [hn1, hn2] at h
          injection h with h
          exact Option.noConfusion h
        | some lst =>
          simp only [hn1, hn2] at h
          injection h with h
          have hd1 := hfwd res fst hf hn1
          have hd2 := hbwd res.last_parsed_position r_res lst hr hn2
          rw [parse_two_digits hd1 hd2] at h
          injection h with h
          have e1 := digitVal_le_9 hd1
          have e2 := digitVal_le_9 hd2
          omega

/-- Witness for C2 at `"treb7uchet"`: the returned value 77 is at
most 99. -/
theorem C2_witness :
    extract_numberB "treb7uchet".data = .ok (some 77) ∧ (77 : Nat) ≤ 99 :=
  ⟨rfl, (C2_value_range "treb7uchet".data).1 77 rfl⟩

/-- Claim C3, counterexample: the line `"two"` contains exactly one
match overall, found by the forward scan at position 0; the backward
scan bounded by that boundary re-finds it rather than reporting "no
match", and `extract_number` returns 22, not absent. -/
theorem C3_cex :
    specOccCount "two".data = 1 ∧
      findB "two".data = .ok ⟨some '2', 0⟩ ∧
      r_findB "two".data 0 = .ok ⟨some '2', 0⟩ ∧
      extract_numberB "two".data = .ok (some 22) ∧
      ¬extract_numberB "two".data = .ok none := by
  refine ⟨by decide, rfl, rfl, rfl, ?_⟩
  intro h
  rw [show extract_numberB "two".data = .ok (some 22) from rfl] at h
  injection h with h
  exact Option.noConfusion h

/-- Claim C3 (amended): on an ASCII line containing exactly one digit
match overall (found by the forward scan), the backward scan bounded by
the forward scan's boundary re-finds the same match (same digit
character), and `extract_number` returns eleven times the digit's
value, not absent. -/
theorem C3_single_match (l : List Char) (ha : asciiLine l = true)
    (h1 : specOccCount l = 1) :
    ∃ r r', findB l = .ok r ∧ r_findB l r.last_parsed_position = .ok r' ∧
      r.number ≠ none ∧ r'.number = r.number ∧
      extract_numberB l = .ok (some (11 * specFirstVal l)) := by
  obtain ⟨d, p, b, hfind, hrfind, hdig, hex⟩ := single_occ_refind h1
  refine ⟨⟨some d, p⟩, ⟨some d, b⟩, ?_, ?_, by simp, rfl, ?_⟩
  · rw [findB_ascii ha, hfind]
  · rw [show (⟨some d, p⟩ : SearchResult).last_parsed_position = p from rfl,
      r_findB_ascii ha, hrfind]
  · rw [extract_numberB_ascii ha, hex]

/-- Witness for C3 at the single-match line `"five"`: the extractor
returns `11 * 5 = 55`. -/
theorem C3_witness :
    asciiLine "five".data = true ∧ specOccCount "five".data = 1 ∧
      specFirstVal "five".data = 5 ∧
      ∃ r r', findB "five".data = .ok r ∧
        r_findB "five".data r.last_parsed_position = .ok r' ∧
        r.number ≠ none ∧ r'.number = r.number ∧
        extract_numberB "five".data = .ok (some (11 * specFirstVal "five".data)) :=
  ⟨rfl, by decide, rfl, C3_single_match "five".data rfl (by decide)⟩

/-- Claim C4, counterexample: the scans panic on UTF-8 lines with
non-ASCII characters: the forward scan on `"héllo"` and the backward
scan on `"ollé"` slice a three-byte window at a non-char-boundary byte
index, which panics in Rust (`Except.error` here). -/
theorem C4_cex :
    findB "héllo".data = .error () ∧ r_findB "ollé".data 0 = .error () :=
  ⟨rfl, rfl⟩

/-- Claim C4 (amended to ASCII lines): on every ASCII line both scans
run to completion without error — every slice index falls on a char
boundary, non-digit non-letter characters are simply skipped — and the
byte-level scans agree with the character-level ones (for every bound of
the backward scan), as does the extractor. -/
theorem C4_ascii_safe (l : List Char) (fp : Nat) (ha : asciiLine l = true) :
    findB l = .ok (find l) ∧ r_findB l fp = .ok (r_find l fp) ∧
      extract_numberB l = .ok (extract_number l) :=
  ⟨findB_ascii ha, r_findB_ascii ha fp, extract_numberB_ascii ha⟩

/-- Witness for C4 at `"ab-1"` with bound 2. -/
theorem C4_witness :
    asciiLine "ab-1".data = true ∧
      (findB "ab-1".data = .ok (find "ab-1".data) ∧
       r_findB "ab-1".data 2 = .ok (r_find "ab-1".data 2) ∧
       extract_numberB "ab-1".data = .ok (extract_number "ab-1".data)) :=
  ⟨rfl, C4_ascii_safe "ab-1".data 2 rfl⟩

/-- Claim C5 (confirmed): the five reference lines produce 83 (forward
`'8'` at position 0, backward `'3'`), 13, 77, 76 and absent, and a run
over exactly these five lines sums to 249 with one incorrect line. -/
theorem C5_concrete :
    extract_numberB "eightwothree".data = .ok (some 83) ∧
    findB "eightwothree".data = .ok ⟨some '8', 0⟩ ∧
    r_findB "eightwothree".data 0 = .ok ⟨some '3', 7⟩ ∧
    extract_numberB "abcone2threexyz".data = .ok (some 13) ∧
    extract_numberB "treb7uchet".data = .ok (some 77) ∧
    extract_numberB "7pqrstsixteen".data = .ok (some 76) ∧
    extract_numberB "abcdefg".data = .ok none ∧
    processLines (List.map Except.ok ["eightwothree".data, "abcone2threexyz".data,
      "treb7uchet".data, "7pqrstsixteen".data, "abcdefg".data]) = .ok ⟨249, 5, 1⟩ :=
  ⟨rfl, rfl, rfl, rfl, rfl, rfl, rfl, rfl⟩

/-- Claim C6, counterexample: the line `"éaa"` contains no digit,
literal or spelled, yet `extract_number` does not return absent — it
panics on the non-char-boundary slice. -/
theorem C6_cex :
    specOccCount "éaa".data = 0 ∧ extract_numberB "éaa".data = .error () ∧
      ¬extract_numberB "éaa".data = .ok none := by
  refine ⟨by decide, rfl, ?_⟩
  intro h
  rw [show extract_numberB "éaa".data = .error () from rfl] at h
  exact Except.noConfusion h

/-- Claim C6 (amended to ASCII lines): on every ASCII line containing no
digit, literal or spelled, `extract_number` returns absent. -/
theorem C6_no_digit_absent (l : List Char) (ha : asciiLine l = true)
    (h : specOccCount l = 0) : extract_numberB l = .ok none := by
  rw [extract_numberB_ascii ha, extract_number_of_noOcc (firstPos_none_of_count_eq h)]

/-- Witness for C6 at the digitless line `"qqq"`. -/
theorem C6_witness :
    asciiLine "qqq".data = true ∧ specOccCount "qqq".data = 0 ∧
      extract_numberB "qqq".data = .ok none :=
  ⟨rfl, by decide, C6_no_digit_absent "qqq".data rfl (by decide)⟩

/-- Claim C7 (confirmed): over any run of the aggregator loop that
completes, the lines-read counter equals the number of lines consumed,
the sum is exactly the sum of the calibration values of the nonempty
decoded lines with a present value, and the incorrect counter counts
exactly the decoded lines that are empty or yield no value (stated
below the `u32` wrap bound `2 ^ 32`, since the counters are `u32`); and
a run whose decoded lines are ASCII always completes — no line-level
defect (read failure, empty line, absent value) halts it. -/
theorem C7_aggregator (lines : List (Except Unit (List Char))) :
    (asciiRun lines = true → ∃ st, processLines lines = .ok st) ∧
    (∀ st, processLines lines = .ok st → lines.length < U32MOD →
      specRunSum lines < U32MOD →
      st.parsed_lines = lines.length ∧ st.total_sum = specRunSum lines ∧
      st.incorrect_lines = specRunIncorrect lines) := by
  constructor
  · intro ha
    exact processFrom_completes lines ha ⟨0, 0, 0⟩
  · intro st h hlen hsum
    obtain ⟨hp, hs, hi⟩ := processFrom_ok lines ⟨0, 0, 0⟩ st U32MOD_pos U32MOD_pos
      U32MOD_pos h
    have hile : specRunIncorrect lines ≤ lines.length := by
      rw [specRunIncorrect]
      exact List.length_filter_le _ _
    refine ⟨?_, ?_, ?_⟩
    · rw [hp]
      simp only [Nat.zero_add]
      exact Nat.mod_eq_of_lt hlen
    · rw [hs]
      simp only [Nat.zero_add]
      exact Nat.mod_eq_of_lt hsum
    · rw [hi]
      simp only [Nat.zero_add]
      exact Nat.mod_eq_of_lt (by omega)

/-- Witness for C7 on a four-line run: a value line `"a1b2"` adding 12,
a read failure, an empty line and an absent line `"xyz"`, both counted
incorrect. -/
theorem C7_witness :
    (∃ st, processLines [Except.ok "a1b2".data, Except.error (), Except.ok [],
      Except.ok "xyz".data] = .ok st) ∧
    ((12 : Nat) = specRunSum [Except.ok "a1b2".data, Except.error (), Except.ok [],
        Except.ok "xyz".data] ∧
     (2 : Nat) = specRunIncorrect [Except.ok "a1b2".data, Except.error (), Except.ok [],
        Except.ok "xyz".data] ∧
     processLines [Except.ok "a1b2".data, Except.error (), Except.ok [],
        Except.ok "xyz".data] = .ok ⟨12, 4, 2⟩ ∧
     (⟨12, 4, 2⟩ : RunTotals).parsed_lines = 4 ∧
     (⟨12, 4, 2⟩ : RunTotals).total_sum = 12 ∧
     (⟨12, 4, 2⟩ : RunTotals).incorrect_lines = 2) := by
  have h := C7_aggregator [Except.ok "a1b2".data, Except.error (), Except.ok [],
    Except.ok "xyz".data]
  have h2 := h.2 ⟨12, 4, 2⟩ rfl (by decide) (by decide)
  exact ⟨h.1 rfl, rfl, rfl, rfl, h2.1, h2.2.1, h2.2.2⟩

/-- Claim C8 (confirmed): the nine forward probes are pairwise distinct,
the nine backward probes are pairwise distinct, each probe equals the
first (respectively last) three characters of its entry's word, and
consequently the first probe match found is the only possible one, so
breaking at it never changes which entry a scan uses. -/
theorem C8_probes :
    LETTERS_DIGITS.Pairwise (fun e1 e2 => e1.probe ≠ e2.probe) ∧
    LETTERS_DIGITS_REV.Pairwise (fun e1 e2 => e1.probe ≠ e2.probe) ∧
    (LETTERS_DIGITS.all fun e => e.probe == e.word.take 3) = true ∧
    (LETTERS_DIGITS_REV.all fun e => e.probe == e.word.drop (e.word.length - 3)) = true ∧
    (LETTERS_DIGITS.all fun e =>
      LETTERS_DIGITS.find? (fun x => x.probe == e.probe) == some e) = true ∧
    (LETTERS_DIGITS_REV.all fun e =>
      LETTERS_DIGITS_REV.find? (fun x => x.probe == e.probe) == some e) = true := by
  decide

/-- Claim C9, counterexample: on `"abcdefg"` the forward scan finds no
match and returns boundary 7 (the line length); the backward scan called
with that boundary stops immediately with boundary still 7 — it scans
nothing — whereas scanning the entire line (bound 0) would end with
boundary 0.  The bound is a lower bound on the position, so boundary =
line length forbids scanning anything at all. -/
theorem C9_cex :
    findB "abcdefg".data = .ok ⟨none, 7⟩ ∧
    r_findB "abcdefg".data 7 = .ok ⟨none, 7⟩ ∧
    r_findB "abcdefg".data 0 = .ok ⟨none, 0⟩ ∧
    (⟨none, 7⟩ : SearchResult) ≠ ⟨none, 0⟩ :=
  ⟨rfl, rfl, rfl, by decide⟩

/-- Claim C9 (amended): whenever the forward scan finds no match it
returns boundary = line length (in bytes), and the subsequent backward
scan bounded by it performs no iterations, immediately reporting no
match with boundary = line length; it is not permitted to scan any of
the line. -/
theorem C9_no_match_boundary (l : List Char) (r : SearchResult)
    (h : findB l = .ok r) (hn : r.number = none) :
    r.last_parsed_position = byteLen l ∧
      r_findB l r.last_parsed_position = .ok ⟨none, byteLen l⟩ := by
  rw [findB] at h
  have hb := findB_aux_ok_none l (byteLen l) 0 l r h hn
  refine ⟨hb, ?_⟩
  rw [hb, r_findB, Nat.sub_self, r_findB_aux]

/-- Witness for C9 at the digitless line `"xyz"` (byte length 3). -/
theorem C9_witness :
    findB "xyz".data = .ok ⟨none, 3⟩ ∧
      ((⟨none, 3⟩ : SearchResult).last_parsed_position = byteLen "xyz".data ∧
       r_findB "xyz".data (⟨none, 3⟩ : SearchResult).last_parsed_position =
         .ok ⟨none, byteLen "xyz".data⟩) :=
  ⟨rfl, C9_no_match_boundary "xyz".data ⟨none, 3⟩ rfl rfl⟩

/-- Claim C10 (confirmed, implicit): on every ASCII line, whenever the
forward scan returns a digit, the backward scan called with the forward
boundary also returns a digit (a literal digit at the boundary is
re-seen because the bound is exclusive, and a matched word is re-found
via its suffix); `extract_number` returns a value exactly when the line
contains at least one digit occurrence; and a line with a single
occurrence yields that digit doubled. -/
theorem C10_forward_backward (l : List Char) (ha : asciiLine l = true) :
    (∀ r c, findB l = .ok r → r.number = some c →
      ∃ r' c', r_findB l r.last_parsed_position = .ok r' ∧ r'.number = some c') ∧
    ((∃ v, extract_numberB l = .ok (some v)) ↔ specOccCount l ≠ 0) ∧
    (specOccCount l = 1 → extract_numberB l = .ok (some (11 * specFirstVal l))) := by
  refine ⟨?_, ⟨?_, ?_⟩, ?_⟩
  · intro r c hr hn
    rw [findB_ascii ha] at hr
    injection hr with hr
    subst hr
    cases hf : specFirstPos l with
    | none =>
      exfalso
      rw [find_eq_of_none hf] at hn
      cases hn
    | some p =>
      obtain ⟨d, v, L, hfind, _, hocc, _⟩ := find_eq_of_some hf
      obtain ⟨q₂, hq₂⟩ := Option.isSome_iff_exists.mp
        (specLastPos_isSome_of_occ (specFirstPos_mem hf).choose_spec.choose_spec.2.1
          (by rw [hocc]; rfl))
      obtain ⟨v₂, L₂, hocc₂, _, _⟩ := specLastPos_mem hq₂
      obtain ⟨d₂, b, hrfind, _, _⟩ := r_find_last hf hq₂ hocc₂
      rw [hfind]
      refine ⟨⟨some d₂, b⟩, d₂, ?_, rfl⟩
      rw [show (⟨some d, p⟩ : SearchResult).last_parsed_position = p from rfl,
        r_findB_ascii ha, hrfind]
  · rintro ⟨v, hv⟩ hc
    rw [extract_numberB_ascii ha,
      extract_number_of_noOcc (firstPos_none_of_count_eq hc)] at hv
    injection hv with hv
    exact Option.noConfusion hv
  · intro hc
    obtain ⟨p, hp⟩ := firstPos_some_of_count_ne hc
    exact ⟨_, by rw [extract_numberB_ascii ha, extract_number_of_hasOcc hp]⟩
  · intro h1
    obtain ⟨d, p, b, _, _, _, hex⟩ := single_occ_refind h1
    rw [extract_numberB_ascii ha, hex]

/-- Witness for C10 at `"a3b"`: one occurrence, value doubled to 33. -/
theorem C10_witness :
    asciiLine "a3b".data = true ∧ specOccCount "a3b".data = 1 ∧
      specFirstVal "a3b".data = 3 ∧
      extract_numberB "a3b".data = .ok (some (11 * specFirstVal "a3b".data)) :=
  ⟨rfl, by decide, rfl, (C10_forward_backward "a3b".data rfl).2.2 (by decide)⟩

end FindDigits
